import Mathlib

/-!
Verification of the slot-machine core of the `polymarket-casino-slot`
repository against its natural-language specification.

The development shallowly embeds the TypeScript sources:

* `src/core/services/SlotMachineService.ts` — paytable, flood-fill cluster
  finder, blob placement, losing-screen generation and spin-result synthesis;
* `src/core/services/BetService.ts` — bet placement validation;
* `src/core/services/GameOrchestrator.ts` — the spin state machine guard.

Conventions of the embedding:

* JavaScript numbers are modelled as `ℚ` (the quantities involved are
  decimal money amounts and paytable multipliers).  Because the standard
  `ℚ` arithmetic operations are `@[irreducible]` in this toolchain, the
  embedding computes with the kernel-reducible wrappers `qadd`, `qsub`,
  `qmul`, `qdiv` below, each proved equal to the corresponding standard
  operation, so that concrete runs of the embedded code evaluate by `decide`.
* `Math.random()`-driven choices are modelled by an ambient choice stream
  `f : ℕ → ℕ` together with a cursor `i : ℕ`: every primitive random draw
  reads `f i` and advances the cursor.  A uniform pick from `k` alternatives
  uses `f i % k`, so quantifying over all `f` covers every outcome of the
  random choices of the source program.
* The 7×7 grid is a total function `Fin 7 → Fin 7 → String`, indexed as
  `grid col row`, exactly like `grid[col][row]` in the source.
* `while` loops whose termination is not structural are given explicit fuel
  and return `Option`; `none` models divergence of the source loop.
* JavaScript `Array.prototype.sort` with a consistent comparator is a
  stable sort, modelled by `List.insertionSort` (also stable).
-/

set_option maxRecDepth 100000
set_option maxHeartbeats 1600000

namespace PolymarketSlot

/-! ### Kernel-computable rational arithmetic -/

/-- Computable addition on `ℚ` (the library `+` is `@[irreducible]`). -/
def qadd (a b : ℚ) : ℚ := mkRat (a.num * b.den + b.num * a.den) (a.den * b.den)

/-- Computable subtraction on `ℚ`. -/
def qsub (a b : ℚ) : ℚ := mkRat (a.num * b.den - b.num * a.den) (a.den * b.den)

/-- Computable multiplication on `ℚ`. -/
def qmul (a b : ℚ) : ℚ := mkRat (a.num * b.num) (a.den * b.den)

/-- Computable division on `ℚ` (with the library convention `a / 0 = 0`). -/
def qdiv (a b : ℚ) : ℚ :=
  if 0 ≤ b.num then mkRat (a.num * b.den) (a.den * b.num.toNat)
  else mkRat (-(a.num * b.den)) (a.den * (-b.num).toNat)

theorem den_cast_ne_zero (a : ℚ) : ((a.den : ℚ)) ≠ 0 := by
  exact_mod_cast a.den_nz

theorem qadd_eq (a b : ℚ) : qadd a b = a + b := by
  rw [qadd, Rat.mkRat_eq_div]
  push_cast
  conv_rhs => rw [← Rat.num_div_den a, ← Rat.num_div_den b,
    div_add_div _ _ (den_cast_ne_zero a) (den_cast_ne_zero b)]
  ring_nf

theorem qsub_eq (a b : ℚ) : qsub a b = a - b := by
  rw [qsub, Rat.mkRat_eq_div]
  push_cast
  conv_rhs => rw [← Rat.num_div_den a, ← Rat.num_div_den b,
    div_sub_div _ _ (den_cast_ne_zero a) (den_cast_ne_zero b)]
  ring_nf

theorem qmul_eq (a b : ℚ) : qmul a b = a * b := by
  rw [qmul, Rat.mkRat_eq_div]
  push_cast
  conv_rhs => rw [← Rat.num_div_den a, ← Rat.num_div_den b, div_mul_div_comm]

theorem qdiv_eq (a b : ℚ) : qdiv a b = a / b := by
  rcases lt_trichotomy b.num 0 with hn | hn | hn
  · have ht : (((-b.num).toNat : ℕ) : ℚ) = ((-b.num : ℤ) : ℚ) := by
      exact_mod_cast congrArg (Int.cast : ℤ → ℚ) (Int.toNat_of_nonneg (by omega))
    have hb : ((b.num : ℚ)) ≠ 0 := by exact_mod_cast (by omega : b.num ≠ 0)
    rw [qdiv, if_neg (by omega), Rat.mkRat_eq_div]
    push_cast [ht]
    conv_rhs => rw [← Rat.num_div_den a, ← Rat.num_div_den b]
    field_simp [den_cast_ne_zero, hb]
  · have hb : b = 0 := by
      have := @Rat.num_eq_zero b
      tauto
    subst hb
    rw [qdiv, if_pos (by norm_num), Rat.mkRat_eq_div]
    norm_num
  · have ht : ((b.num.toNat : ℕ) : ℚ) = ((b.num : ℤ) : ℚ) := by
      exact_mod_cast congrArg (Int.cast : ℤ → ℚ) (Int.toNat_of_nonneg (by omega))
    have hb : ((b.num : ℚ)) ≠ 0 := by exact_mod_cast (by omega : b.num ≠ 0)
    rw [qdiv, if_pos (by omega), Rat.mkRat_eq_div]
    push_cast [ht]
    conv_rhs => rw [← Rat.num_div_den a, ← Rat.num_div_den b]
    field_simp [den_cast_ne_zero, hb]


/-! ### The grid model -/

/-- A cell of the 7×7 grid, `(col, row)` like the `{col, row}` records of the
source. -/
abbrev Pos : Type := Fin 7 × Fin 7

/-- The symbol grid: `grid col row` is the symbol shown at column `col`,
row `row` (source type `string[][]`, indexed `grid[col][row]`). -/
abbrev Grid : Type := Fin 7 → Fin 7 → String

/-- `const SYMBOLS = [...]` of `SlotMachineService.ts`. -/
def SYMBOLS : List String :=
  ["bear_yellow", "bear_purple", "bear_red", "candy_green", "candy_purple", "candy_red"]

/-- `const SYMBOL_PAYOUTS` of `SlotMachineService.ts`.  Each row is listed in
ascending key order because JavaScript `Object.keys` enumerates integer-like
keys in ascending numeric order regardless of the order they are written in
the object literal.  The decimal multipliers of the source are written as
exact rationals (`0.4 = mkRat 2 5` and so on).  An unrecognized symbol
yields `[]`, modelling `SYMBOL_PAYOUTS[symbol] ?? {}`. -/
def SYMBOL_PAYOUTS (symbol : String) : List (ℕ × ℚ) :=
  if symbol = "bear_yellow" then
    [(5, mkRat 2 5), (6, mkRat 1 2), (7, mkRat 3 5), (8, mkRat 4 5), (9, 1),
     (10, 2), (11, 3), (12, 5), (13, 10), (14, 24), (15, 40)]
  else if symbol = "bear_purple" then
    [(5, mkRat 1 2), (6, mkRat 3 5), (7, mkRat 4 5), (8, 1), (9, mkRat 3 2),
     (10, mkRat 5 2), (11, 4), (12, 6), (13, 12), (14, 24), (15, 50)]
  else if symbol = "bear_red" then
    [(5, mkRat 3 5), (6, mkRat 4 5), (7, 1), (8, mkRat 3 2), (9, 2),
     (10, 3), (11, 5), (12, 7), (13, 16), (14, 30), (15, 60)]
  else if symbol = "candy_green" then
    [(5, mkRat 4 5), (6, 1), (7, mkRat 3 2), (8, 2), (9, mkRat 5 2),
     (10, 4), (11, 6), (12, 11), (13, 20), (14, 40), (15, 80)]
  else if symbol = "candy_purple" then
    [(5, 1), (6, mkRat 3 2), (7, 2), (8, mkRat 5 2), (9, 3),
     (10, 6), (11, 9), (12, 20), (13, 40), (14, 80), (15, 120)]
  else if symbol = "candy_red" then
    [(5, mkRat 3 2), (6, 2), (7, mkRat 5 2), (8, 3), (9, 4),
     (10, 5), (11, 12), (12, 24), (13, 60), (14, 120), (15, 200)]
  else []

/-- `getPayoutMultiplier(symbol, count)` of `SlotMachineService.ts`:
collect the listed thresholds in ascending order, start from the smallest
(`sortedCounts[0] ?? 0`), walk the thresholds keeping the last one that is
`≤ count`, and return its multiplier (`payouts[best] ?? 0`). -/
def getPayoutMultiplier (symbol : String) (count : ℕ) : ℚ :=
  let payouts := SYMBOL_PAYOUTS symbol
  let sortedCounts := List.insertionSort (· ≤ ·) (payouts.map Prod.fst)
  let best := sortedCounts.foldl
    (fun best threshold => if count ≥ threshold then threshold else best)
    (sortedCounts.headD 0)
  (payouts.lookup best).getD 0

/-- Modelled from the spec (§3, §4.2): the effective multiplier for a count
is the one of the largest listed threshold that is `≤ count` (floor lookup);
`none` when no listed threshold is `≤ count`. -/
def specFloorMultiplier (symbol : String) (count : ℕ) : Option ℚ :=
  (((SYMBOL_PAYOUTS symbol).map Prod.fst).filter (· ≤ count)).max?.bind
    (fun t => (SYMBOL_PAYOUTS symbol).lookup t)

example : getPayoutMultiplier "bear_yellow" 5 = mkRat 2 5 := by decide
example : getPayoutMultiplier "candy_red" 49 = 200 := by decide
example : getPayoutMultiplier "candy_red" 11 = 12 := by decide
example : getPayoutMultiplier "nope" 9 = 0 := by decide
example : specFloorMultiplier "candy_red" 11 = some 12 := by decide

/-! ### Domain records (`src/core/domain/types.ts`)

Only the fields the verified claims depend on are modelled; timestamps and
price fields are irrelevant to every claim and are omitted. -/

inductive BetDirection | UP | DOWN
deriving DecidableEq, Repr

inductive BetStatus | PENDING | ACTIVE | RESOLVING | WON | LOST | CANCELLED
deriving DecidableEq, Repr

inductive BetMode | demo | live
deriving DecidableEq, Repr

structure Bet where
  id : String
  amount : ℚ
  direction : BetDirection
  status : BetStatus
  mode : BetMode
deriving DecidableEq, Repr

structure WinningCluster where
  symbol : String
  positions : List Pos
  count : ℕ
  payout : ℚ
deriving DecidableEq, Repr

structure BetResolution where
  bet : Bet
  won : Bool
  payout : ℚ
  priceChange : ℚ
  priceChangePercent : ℚ
deriving DecidableEq, Repr

structure SpinResult where
  symbols : Grid
  isWin : Bool
  winAmount : ℚ
  totalPayout : ℚ
  multiplier : ℚ
  bet : Bet
  clusters : List WinningCluster

/-! ### Random primitives -/

/-- `getRandomSymbol()`: `SYMBOLS[Math.floor(Math.random() * SYMBOLS.length)] ?? 'candy_red'`.
The draw `f i` picks index `f i % 6`. -/
def getRandomSymbol (f : ℕ → ℕ) (i : ℕ) : String × ℕ :=
  ((SYMBOLS.get? (f i % SYMBOLS.length)).getD "candy_red", i + 1)

/-- `getDifferentSymbol(exclude)`: a uniform pick from the symbols other
than `exclude` (`?? exclude` when that list is empty). -/
def getDifferentSymbol (f : ℕ → ℕ) (i : ℕ) (exclude : String) : String × ℕ :=
  let available := SYMBOLS.filter (fun s => s ≠ exclude)
  ((available.get? (f i % available.length)).getD exclude, i + 1)

/-! ### Grid helpers -/

/-- Overwrite one cell: `grid[p.col][p.row] = s`. -/
def setCell (g : Grid) (p : Pos) (s : String) : Grid :=
  fun c r => if c = p.1 ∧ r = p.2 then s else g c r

/-- Move from `p` by the offset `d = (dc, dr)`, returning `none` when the
target is outside the 7×7 board (the source's
`nc < 0 || nc >= 7 || nr < 0 || nr >= 7` checks). -/
def shift (p : Pos) (d : ℤ × ℤ) : Option Pos :=
  let nc : ℤ := (p.1 : ℤ) + d.1
  let nr : ℤ := (p.2 : ℤ) + d.2
  if h : 0 ≤ nc ∧ nc < 7 ∧ 0 ≤ nr ∧ nr < 7 then
    some (⟨nc.toNat, by omega⟩, ⟨nr.toNat, by omega⟩)
  else none

/-- The direction list of `findConnectedClusters`. -/
def floodDirections : List (ℤ × ℤ) := [(1, 0), (-1, 0), (0, 1), (0, -1)]

/-- The direction list of `placeCluster`. -/
def growDirections : List (ℤ × ℤ) := [(-1, 0), (1, 0), (0, -1), (0, 1)]

/-- In-bounds 4-neighbours of a cell, in flood-fill direction order. -/
def nbrs (p : Pos) : List Pos := floodDirections.filterMap (shift p)

/-- All 49 cells in the scan order of the source loops: column-major,
`col` outer and `row` inner. -/
def allPositions : List Pos :=
  (List.finRange 7).flatMap (fun c => (List.finRange 7).map (fun r => (c, r)))

/-- Fill all 49 cells with independent random symbols, in the loop order of
the source (`col` outer, `row` inner), consuming 49 draws. -/
def genGrid (f : ℕ → ℕ) (i : ℕ) : Grid × ℕ :=
  (fun c r => ((SYMBOLS.get? (f (i + c.1 * 7 + r.1) % SYMBOLS.length)).getD "candy_red"),
   i + 49)

/-! ### Flood-fill cluster finder (`findConnectedClusters`) -/

/-- The BFS inner `while (queue.length > 0)` loop of `findConnectedClusters`.
Cells are marked visited as they are enqueued, exactly like the source;
`acc` collects dequeued cells in order.  Fuel-indexed; `bfsFuel` is proved
sufficient below. -/
def bfsLoop (g : Grid) (sym : String) :
    ℕ → List Pos → List Pos → List Pos → Option (List Pos × List Pos)
  | 0, _, _, _ => none
  | _ + 1, [], visited, acc => some (acc, visited)
  | fuel + 1, p :: queue, visited, acc =>
    let fresh := (nbrs p).filter (fun q => decide (q ∉ visited ∧ g q.1 q.2 = sym))
    bfsLoop g sym fuel (queue ++ fresh) (visited ++ fresh) (acc ++ [p])

/-- Fuel that dominates the BFS measure `5·(49 − |visited|) + |queue| + 1`. -/
def bfsFuel : ℕ := 300

/-- Comparator of the final `clusters.sort((a, b) => a.payout - b.payout || a.count - b.count)`:
ascending by payout, ties by count. -/
def clusterLE (a b : WinningCluster) : Prop :=
  a.payout < b.payout ∨ (a.payout = b.payout ∧ a.count ≤ b.count)

instance : DecidableRel clusterLE := fun a b => by
  unfold clusterLE; infer_instance

instance : IsTotal WinningCluster clusterLE where
  total a b := by
    rcases lt_trichotomy a.payout b.payout with h | h | h
    · exact Or.inl (Or.inl h)
    · rcases Nat.le_total a.count b.count with h2 | h2
      · exact Or.inl (Or.inr ⟨h, h2⟩)
      · exact Or.inr (Or.inr ⟨h.symm, h2⟩)
    · exact Or.inr (Or.inl h)

instance : IsTrans WinningCluster clusterLE where
  trans a b c hab hbc := by
    rcases hab with h1 | ⟨h1, h1c⟩ <;> rcases hbc with h2 | ⟨h2, h2c⟩
    · exact Or.inl (h1.trans h2)
    · exact Or.inl (h2 ▸ h1)
    · exact Or.inl (h1 ▸ h2)
    · exact Or.inr ⟨h1.trans h2, h1c.trans h2c⟩

/-- One step of the outer cell scan of `findConnectedClusters`: skip visited
cells, otherwise flood fill from the cell and keep the region as a cluster
when its size is ≥ 5. -/
def clusterStep (g : Grid) (stake : ℚ) (st : List Pos × List WinningCluster)
    (p : Pos) : List Pos × List WinningCluster :=
  if p ∈ st.1 then st
  else
    match bfsLoop g (g p.1 p.2) bfsFuel [p] (st.1 ++ [p]) [] with
    | none => st
    | some (positions, visited2) =>
      if 5 ≤ positions.length then
        (visited2, st.2 ++ [{ symbol := g p.1 p.2, positions := positions,
                              count := positions.length,
                              payout := qmul (getPayoutMultiplier (g p.1 p.2) positions.length) stake }])
      else (visited2, st.2)

/-- `findConnectedClusters(grid, stake)`: scan the 49 cells in order, flood
fill from each unvisited cell, keep regions of size ≥ 5 as clusters with
`payout = multiplier × stake`, and sort ascending by `(payout, count)`. -/
def findConnectedClusters (g : Grid) (stake : ℚ) : List WinningCluster :=
  List.insertionSort clusterLE ((allPositions.foldl (clusterStep g stake) ([], [])).2)

example :
    (findConnectedClusters (fun _ _ => "candy_red") 1).map
      (fun c => (c.symbol, c.count, c.payout)) = [("candy_red", 49, 200)] := by decide

/-! ### Blob placement (`placeCluster`) -/

/-- The hard-coded seed `startCol = 3; startRow = 3` of `placeCluster`. -/
def centerPos : Pos := (3, 3)

/-- One outcome of `directions.sort(() => Math.random() - 0.5)`: the draw
`k` selects one of the 24 permutations of the four growth directions. -/
def permOf (k : ℕ) : List (ℤ × ℤ) :=
  (growDirections.permutations.get? (k % growDirections.permutations.length)).getD
    growDirections

/-- The `for (const [dc, dr] of shuffledDirs)` growth attempt: the first
direction whose target cell is on the board and does not already hold the
symbol. -/
def tryGrow (g : Grid) (sym : String) (base : Pos) : List (ℤ × ℤ) → Option Pos
  | [] => none
  | d :: rest =>
    match shift base d with
    | some q => if g q.1 q.2 ≠ sym then some q else tryGrow g sym base rest
    | none => tryGrow g sym base rest

/-- The stall fallback of `placeCluster`: scan the whole grid in column-major
order, forcing every cell that does not yet hold the symbol into the blob,
stopping as soon as `count` is reached. -/
def scanFill (sym : String) (count : ℕ) :
    List Pos → Grid → List Pos → ℕ → Grid × List Pos × ℕ
  | [], g, ps, placed => (g, ps, placed)
  | p :: rest, g, ps, placed =>
    if g p.1 p.2 ≠ sym then
      let g' := setCell g p sym
      if count ≤ placed + 1 then (g', ps ++ [p], placed + 1)
      else scanFill sym count rest g' (ps ++ [p]) (placed + 1)
    else scanFill sym count rest g ps placed

/-- State of the `while (placed < count)` loop of `placeCluster`. -/
structure PlaceState where
  grid : Grid
  positions : List Pos
  placed : ℕ
  i : ℕ

/-- The `while (placed < count)` loop of `placeCluster`: pick a random base
cell of the blob (draw 1), try the four directions in a random order
(draw 2) to claim one adjacent cell, then — whenever
`placed === positions.length && placed < count` — run the whole-grid scan
fallback.  Fuel-indexed; `none` models the source loop never terminating. -/
def placeLoop (f : ℕ → ℕ) (sym : String) (count : ℕ) :
    ℕ → PlaceState → Option PlaceState
  | 0, _ => none
  | fuel + 1, st =>
    if st.placed < count then
      match st.positions.get? (f st.i % st.positions.length) with
      | none => some st
      | some base =>
        let dirs := permOf (f (st.i + 1))
        let st1 : PlaceState :=
          match tryGrow st.grid sym base dirs with
          | some q => ⟨setCell st.grid q sym, st.positions ++ [q], st.placed + 1, st.i + 2⟩
          | none => ⟨st.grid, st.positions, st.placed, st.i + 2⟩
        let st2 : PlaceState :=
          if st1.placed = st1.positions.length ∧ st1.placed < count then
            let r := scanFill sym count allPositions st1.grid st1.positions st1.placed
            ⟨r.1, r.2.1, r.2.2, st1.i⟩
          else st1
        placeLoop f sym count fuel st2
    else some st

/-- Fuel for `placeLoop`; two iterations are proved sufficient whenever the
source loop terminates at all. -/
def placeFuel : ℕ := 50

/-- `placeCluster(grid, symbol, count)`: paint the centre seed, then grow. -/
def placeCluster (f : ℕ → ℕ) (i : ℕ) (g : Grid) (sym : String) (count : ℕ) :
    Option PlaceState :=
  placeLoop f sym count placeFuel ⟨setCell g centerPos sym, [centerPos], 1, i⟩

/-- One step of the `clusters.forEach(...)` loop of
`generateGridWithClusters`: paint the next planned cluster (`none`
propagates divergence of an earlier placement). -/
def placeStep (f : ℕ → ℕ) (acc : Option (Grid × ℕ)) (c : WinningCluster) :
    Option (Grid × ℕ) :=
  match acc with
  | none => none
  | some (g, j) => (placeCluster f j g c.symbol c.count).map (fun st => (st.grid, st.i))

/-- `generateGridWithClusters(clusters)`: a fresh random grid, then each
planned cluster painted over it in order. -/
def generateGridWithClusters (f : ℕ → ℕ) (i : ℕ) (clusters : List WinningCluster) :
    Option (Grid × ℕ) :=
  clusters.foldl (placeStep f) (some (genGrid f i))

/-! ### Losing screen (`generateLosingScreen` / `breakWinningClusters`) -/

/-- The inner `for (const pos of cluster.positions)` loop of
`breakWinningClusters`: repaint up to `toRemove` cells of the cluster with a
symbol different from the cluster's. -/
def breakClusterPositions (f : ℕ → ℕ) (exclude : String) :
    List Pos → ℕ → Grid → ℕ → Grid × ℕ
  | [], _, g, i => (g, i)
  | p :: rest, toRemove, g, i =>
    if toRemove = 0 then (g, i)
    else
      let si := getDifferentSymbol f i exclude
      breakClusterPositions f exclude rest (toRemove - 1) (setCell g p si.1) si.2

/-- `breakWinningClusters(grid)`: up to 8 detect-and-break attempts; each
attempt repaints `count − 4` cells of every detected size-≥5 cluster. -/
def breakWinningClusters (f : ℕ → ℕ) : ℕ → Grid → ℕ → Grid × ℕ
  | 0, g, i => (g, i)
  | attempts + 1, g, i =>
    let clusters := findConnectedClusters g 1
    let bigClusters := clusters.filter (fun c => 5 ≤ c.count)
    if bigClusters.isEmpty then (g, i)
    else
      let r := bigClusters.foldl
        (fun (acc : Grid × ℕ) c =>
          breakClusterPositions f c.symbol c.positions (c.count - 4) acc.1 acc.2)
        (g, i)
      breakWinningClusters f attempts r.1 r.2

/-- `generateLosingScreen()`: a fresh random grid with its winning clusters
broken (`maxAttempts = 8`). -/
def generateLosingScreen (f : ℕ → ℕ) (i : ℕ) : Grid × ℕ :=
  let gi := genGrid f i
  breakWinningClusters f 8 gi.1 gi.2

/-! ### Cluster plan search (`buildClustersForProfit`) -/

/-- One `{symbol, count, multiplier, profit}` entry of the plan search. -/
structure PayoutEntry where
  symbol : String
  count : ℕ
  multiplier : ℚ
  profit : ℚ
deriving DecidableEq, Repr

/-- Comparator of `entries.sort((a, b) => b.profit - a.profit)`: descending
by profit. -/
def entryGE (a b : PayoutEntry) : Prop := b.profit ≤ a.profit

instance : DecidableRel entryGE := fun a b => by
  unfold entryGE; infer_instance

instance : IsTotal PayoutEntry entryGE where
  total a b := le_total b.profit a.profit

instance : IsTrans PayoutEntry entryGE where
  trans _ _ _ hab hbc := le_trans hbc hab

/-- All `(symbol, count) → profit = multiplier × stake` paytable entries, in
symbol-major, ascending-count order (the enumeration order of the source's
nested loops). -/
def payoutEntries (stake : ℚ) : List PayoutEntry :=
  SYMBOLS.flatMap (fun s =>
    (SYMBOL_PAYOUTS s).map (fun e => ⟨s, e.1, e.2, qmul e.2 stake⟩))

/-- The inner best-entry scan: start from `entries[0]` and keep the first
entry whose `|profit − remaining|` is strictly smaller than the best so far. -/
def closestEntry (remaining : ℚ) (e0 : PayoutEntry) (entries : List PayoutEntry) :
    PayoutEntry :=
  (entries.foldl
    (fun (acc : PayoutEntry × ℚ) e =>
      let diff := |qsub e.profit remaining|
      if diff < acc.2 then (e, diff) else acc)
    (e0, |qsub e0.profit remaining|)).1

/-- The `while (remaining > 0 && clusters.length < maxClusters)` loop of
`buildClustersForProfit` (`maxClusters = 3`); each iteration appends one
cluster, so fuel 3 realizes the loop exactly. -/
def buildLoop (entries : List PayoutEntry) (stake : ℚ) :
    ℕ → ℚ → List WinningCluster → List WinningCluster
  | 0, _, clusters => clusters
  | fuel + 1, remaining, clusters =>
    if 0 < remaining ∧ clusters.length < 3 then
      match entries with
      | [] => clusters
      | e0 :: _ =>
        let best := closestEntry remaining e0 entries
        let clusters' := clusters ++ [{ symbol := best.symbol, positions := [],
                                        count := best.count, payout := best.profit }]
        let remaining' := qsub remaining best.profit
        if remaining' < qmul stake (mkRat 1 5) then clusters'
        else buildLoop entries stake fuel remaining' clusters'
    else clusters

/-- `buildClustersForProfit(targetProfit, stake)`: sort the paytable entries
descending by profit, greedily pick up to 3 closest-profit clusters, and
return them sorted ascending by `(payout, count)`. -/
def buildClustersForProfit (targetProfit stake : ℚ) : List WinningCluster :=
  let entries := List.insertionSort entryGE (payoutEntries stake)
  List.insertionSort clusterLE (buildLoop entries stake 3 targetProfit [])

/-- `computeProfit(clusters)`: `clusters.reduce((sum, c) => sum + c.payout, 0)`. -/
def computeProfit (clusters : List WinningCluster) : ℚ :=
  clusters.foldl (fun sum c => qadd sum c.payout) 0

/-! ### Spin-result synthesis (`generateSpinResult`) -/

/-- `generateSpinResult(resolution)`.  Returns `none` only when one of the
internal `placeCluster` loops diverges (which the source would mirror by
never returning). -/
def generateSpinResult (f : ℕ → ℕ) (i : ℕ) (resolution : BetResolution) :
    Option SpinResult :=
  let payout := resolution.payout
  let bet := resolution.bet
  let stake := bet.amount
  let targetProfit := max 0 (qsub payout stake)
  if targetProfit ≤ 0 then
    let gi := generateLosingScreen f i
    some { symbols := gi.1, isWin := false, winAmount := 0,
           totalPayout := max 0 payout, multiplier := qdiv (max 0 payout) stake,
           bet := bet, clusters := [] }
  else
    let plannedClusters := buildClustersForProfit targetProfit stake
    match generateGridWithClusters f i plannedClusters with
    | none => none
    | some (s1, i1) =>
      let a1 := findConnectedClusters s1 stake
      let afterFirstRetry : Option (Grid × List WinningCluster × ℕ) :=
        if a1.isEmpty then
          match plannedClusters.head? with
          | some firstPlanned =>
            match generateGridWithClusters f i1 [firstPlanned] with
            | none => none
            | some (s2, i2) => some (s2, findConnectedClusters s2 stake, i2)
          | none => some (s1, a1, i1)
        else some (s1, a1, i1)
      match afterFirstRetry with
      | none => none
      | some (s2, a2, i2) =>
        let afterForced : Option (Grid × List WinningCluster × ℕ) :=
          if a2.isEmpty then
            let rs := getRandomSymbol f i2
            match generateGridWithClusters f rs.2
                [{ symbol := rs.1, positions := [], count := 5, payout := 0 }] with
            | none => none
            | some (s3, i3) => some (s3, findConnectedClusters s3 stake, i3)
          else some (s2, a2, i2)
        match afterForced with
        | none => none
        | some (symbols, actualClusters, _) =>
          let rawProfit := computeProfit actualClusters
          let scaledClusters :=
            if 0 < rawProfit ∧ 0 < targetProfit then
              actualClusters.map
                (fun c => { c with payout := qmul c.payout (qdiv targetProfit rawProfit) })
            else actualClusters
          some { symbols := symbols, isWin := decide (0 < targetProfit),
                 winAmount := targetProfit, totalPayout := payout,
                 multiplier := qdiv payout stake, bet := bet,
                 clusters := scaledClusters }

example : permOf 0 = growDirections := by decide

example :
    (buildClustersForProfit 4 10).map (fun c => (c.symbol, c.count, c.payout)) =
      [("bear_yellow", 5, 4)] := by decide

example :
    (buildClustersForProfit 15 10).map (fun c => (c.symbol, c.count, c.payout)) =
      [("bear_purple", 9, 15)] := by decide

/-- A demo bet of stake 10, used for concrete runs. -/
def bet10 : Bet :=
  { id := "bet-1", amount := 10, direction := .UP, status := .ACTIVE, mode := .demo }

/-- A resolution with `payout = 14 > stake = 10` (`targetProfit = 4`). -/
def resolution14 : BetResolution :=
  { bet := bet10, won := true, payout := 14, priceChange := 1, priceChangePercent := 1 }

/-- A resolution with `payout = 25 > stake = 10` (`targetProfit = 15`). -/
def resolution25 : BetResolution :=
  { bet := bet10, won := true, payout := 25, priceChange := 1, priceChangePercent := 1 }

/-- A choice stream under which all three synthesis attempts of
`generateSpinResult` produce a grid with no size-≥5 component: each random
background is a two-symbol checkerboard and the planned blob (size 5) is
split by the scan fallback into a run of 3 and a pair. -/
def cexStream (n : ℕ) : ℕ :=
  if n < 49 then (n / 7 + n % 7) % 2 + 1
  else if n < 51 then 0
  else if n < 100 then ((n - 51) / 7 + (n - 51) % 7) % 2 + 1
  else if n < 103 then 0
  else if n < 152 then ((n - 103) / 7 + (n - 103) % 7) % 2 + 1
  else 0

/-! ### Paytable lemmas -/

/-- The threshold walk of `getPayoutMultiplier` only looks at which
thresholds are `≤ count`. -/
theorem foldl_best_congr (ts : List ℕ) (n m b : ℕ)
    (h : ∀ t ∈ ts, (t ≤ n ↔ t ≤ m)) :
    ts.foldl (fun best threshold => if n ≥ threshold then threshold else best) b =
      ts.foldl (fun best threshold => if m ≥ threshold then threshold else best) b := by
  induction ts generalizing b with
  | nil => rfl
  | cons t ts ih =>
    simp only [List.foldl_cons]
    have ht := h t (by simp)
    by_cases hc : t ≤ n
    · rw [if_pos hc, if_pos (ht.mp hc)]
      exact ih _ (fun t' ht' => h t' (by simp [ht']))
    · rw [if_neg hc, if_neg (fun hh => hc (ht.mpr hh))]
      exact ih _ (fun t' ht' => h t' (by simp [ht']))

/-- Every listed paytable threshold is at most 15. -/
theorem payout_keys_le15 (s : String) :
    ∀ t ∈ (SYMBOL_PAYOUTS s).map Prod.fst, t ≤ 15 := by
  intro t ht
  unfold SYMBOL_PAYOUTS at ht
  split_ifs at ht <;> simp at ht <;> omega

/-- `getPayoutMultiplier` only depends on which thresholds are `≤ count`. -/
theorem gpm_congr (s : String) (n m : ℕ)
    (h : ∀ t ∈ (SYMBOL_PAYOUTS s).map Prod.fst, (t ≤ n ↔ t ≤ m)) :
    getPayoutMultiplier s n = getPayoutMultiplier s m := by
  have h' : ∀ t ∈ List.insertionSort (· ≤ ·) ((SYMBOL_PAYOUTS s).map Prod.fst),
      (t ≤ n ↔ t ≤ m) := by
    intro t ht
    exact h t ((List.perm_insertionSort _ _).mem_iff.mp ht)
  simp only [getPayoutMultiplier]
  rw [foldl_best_congr _ n m _ h']

/-- `specFloorMultiplier` only depends on which thresholds are `≤ count`. -/
theorem specFloor_congr (s : String) (n m : ℕ)
    (h : ∀ t ∈ (SYMBOL_PAYOUTS s).map Prod.fst, (t ≤ n ↔ t ≤ m)) :
    specFloorMultiplier s n = specFloorMultiplier s m := by
  simp only [specFloorMultiplier]
  rw [List.filter_congr (fun t ht => decide_eq_decide.mpr (h t ht))]

/-- **C6.** For every symbol in the 6-symbol set and every `count ≥ 5`,
`getPayoutMultiplier` returns the multiplier listed for the largest listed
threshold that is `≤ count` (the spec's floor lookup over the thresholds
5..15); in particular for `count > 15` it returns the threshold-15
multiplier. -/
theorem C6_floor_lookup (s : String) (hs : s ∈ SYMBOLS) (n : ℕ) (hn : 5 ≤ n) :
    specFloorMultiplier s n = some (getPayoutMultiplier s n) ∧
    (15 < n → getPayoutMultiplier s n = getPayoutMultiplier s 15) := by
  by_cases h15 : n ≤ 15
  · constructor
    · fin_cases hs <;> interval_cases n <;> decide
    · intro h; omega
  · push_neg at h15
    have hiff : ∀ t ∈ (SYMBOL_PAYOUTS s).map Prod.fst, (t ≤ n ↔ t ≤ 15) := by
      intro t ht
      have := payout_keys_le15 s t ht
      omega
    refine ⟨?_, fun _ => gpm_congr s n 15 hiff⟩
    rw [specFloor_congr s n 15 hiff, gpm_congr s n 15 hiff]
    fin_cases hs <;> decide

/-- Witness for C6 at `symbol = "candy_red"`, `count = 17`. -/
theorem C6_floor_lookup_witness :
    specFloorMultiplier "candy_red" 17 = some (getPayoutMultiplier "candy_red" 17) ∧
    (15 < 17 → getPayoutMultiplier "candy_red" 17 = getPayoutMultiplier "candy_red" 15) :=
  C6_floor_lookup "candy_red" (by decide) 17 (by decide)

/-- **C5 (counterexample).** The paytable multipliers are *not* strictly
increasing across the rarity tiers for every fixed count: at count 14 the
first two tiers tie (both 24), and at count 10 the last tier pays *less*
than the one before it (5 < 6). -/
theorem C5_tier_counterexample :
    getPayoutMultiplier "bear_yellow" 14 = 24 ∧
    getPayoutMultiplier "bear_purple" 14 = 24 ∧
    ¬ getPayoutMultiplier "bear_yellow" 14 < getPayoutMultiplier "bear_purple" 14 ∧
    getPayoutMultiplier "candy_purple" 10 = 6 ∧
    getPayoutMultiplier "candy_red" 10 = 5 ∧
    ¬ getPayoutMultiplier "candy_purple" 10 < getPayoutMultiplier "candy_red" 10 := by
  decide

/-- **C5 (amended).** The paytable is monotonically non-decreasing in count
for each fixed symbol over the listed range 5..15, and for each fixed count
in 5..15 the multiplier is strictly increasing across consecutive rarity
tiers (in the order `SYMBOLS` lists them) *except* that at count 14 the
first two tiers are equal and at count 10 the last tier pays less than its
predecessor. -/
theorem C5_paytable_monotone_amended :
    (∀ s ∈ SYMBOLS, ∀ c1 ∈ List.range 16, ∀ c2 ∈ List.range 16,
        5 ≤ c1 → c1 ≤ c2 → getPayoutMultiplier s c1 ≤ getPayoutMultiplier s c2) ∧
    (∀ i ∈ List.range 5, ∀ c ∈ List.range 16, 5 ≤ c →
        ¬(i = 0 ∧ c = 14) → ¬(i = 4 ∧ c = 10) →
        getPayoutMultiplier (SYMBOLS.getD i "") c <
          getPayoutMultiplier (SYMBOLS.getD (i + 1) "") c) ∧
    getPayoutMultiplier "bear_yellow" 14 = getPayoutMultiplier "bear_purple" 14 ∧
    getPayoutMultiplier "candy_red" 10 < getPayoutMultiplier "candy_purple" 10 := by
  decide

/-- Witness for the amended C5 at `("candy_red", 7 ≤ 9)` and the tier pair
`bear_purple < bear_red` at count 5. -/
theorem C5_paytable_monotone_amended_witness :
    getPayoutMultiplier "candy_red" 7 ≤ getPayoutMultiplier "candy_red" 9 ∧
    getPayoutMultiplier (SYMBOLS.getD 1 "") 5 < getPayoutMultiplier (SYMBOLS.getD 2 "") 5 :=
  ⟨C5_paytable_monotone_amended.1 "candy_red" (by decide) 7 (by decide) 9 (by decide)
      (by decide) (by decide),
   C5_paytable_monotone_amended.2.1 1 (by decide) 5 (by decide) (by decide)
      (by decide) (by decide)⟩

/-- **C10.** `getPayoutMultiplier` is total: for a recognized symbol and any
count below the smallest listed threshold it returns that symbol's
threshold-5 multiplier, and for an unrecognized symbol it returns 0. -/
theorem C10_multiplier_total (s : String) (n : ℕ) :
    (s ∈ SYMBOLS → n < 5 → getPayoutMultiplier s n = ((SYMBOL_PAYOUTS s).lookup 5).getD 0) ∧
    (s ∉ SYMBOLS → getPayoutMultiplier s n = 0) := by
  constructor
  · intro hs hn
    fin_cases hs <;> interval_cases n <;> decide
  · intro hs
    have h0 : SYMBOL_PAYOUTS s = [] := by
      simp only [SYMBOLS, List.mem_cons, List.not_mem_nil, or_false, not_or] at hs
      obtain ⟨h1, h2, h3, h4, h5, h6⟩ := hs
      unfold SYMBOL_PAYOUTS
      rw [if_neg h1, if_neg h2, if_neg h3, if_neg h4, if_neg h5, if_neg h6]
    simp only [getPayoutMultiplier]
    rw [h0]
    rfl

/-- Witness for C10 at `("bear_yellow", 3)` and the unknown symbol `"zzz"`. -/
theorem C10_multiplier_total_witness :
    getPayoutMultiplier "bear_yellow" 3 = ((SYMBOL_PAYOUTS "bear_yellow").lookup 5).getD 0 ∧
    getPayoutMultiplier "zzz" 7 = 0 :=
  ⟨(C10_multiplier_total "bear_yellow" 3).1 (by decide) (by decide),
   (C10_multiplier_total "zzz" 7).2 (by decide)⟩

/-! ### The losing path (C2) -/

/-- **C2.** For every resolution with `payout ≤ bet.amount` (including exact
break-even) and every outcome of the random choices, `generateSpinResult`
returns `isWin = false`, `winAmount = 0`, `totalPayout = max 0 payout`,
`multiplier = max 0 payout / stake`, and `clusters = []`. -/
theorem C2_losing_path (f : ℕ → ℕ) (i : ℕ) (resolution : BetResolution)
    (h : resolution.payout ≤ resolution.bet.amount) :
    ∃ r, generateSpinResult f i resolution = some r ∧
      r.isWin = false ∧ r.winAmount = 0 ∧
      r.totalPayout = max 0 resolution.payout ∧
      r.multiplier = max 0 resolution.payout / resolution.bet.amount ∧
      r.clusters = [] := by
  have htp : max 0 (qsub resolution.payout resolution.bet.amount) ≤ 0 := by
    rw [qsub_eq]
    simp only [max_le_iff, le_refl, true_and, sub_nonpos]
    exact h
  unfold generateSpinResult
  rw [if_pos htp]
  exact ⟨_, rfl, rfl, rfl, rfl, by rw [qdiv_eq], rfl⟩

/-- Witness for C2: the break-even scenario `stake = 10`, `payout = 10`. -/
theorem C2_losing_path_witness :
    ∃ r, generateSpinResult (fun _ => 0) 0
        { bet := bet10, won := false, payout := 10, priceChange := 0,
          priceChangePercent := 0 } = some r ∧
      r.isWin = false ∧ r.winAmount = 0 ∧
      r.totalPayout = max 0 (10 : ℚ) ∧
      r.multiplier = max 0 (10 : ℚ) / (10 : ℚ) ∧
      r.clusters = [] :=
  C2_losing_path (fun _ => 0) 0 _ (by decide)

/-! ### Bet service (`BetService.ts`, claim C9) -/

/-- `SlotConfig.minLiveBetAmount` (`slot.config.ts`). -/
def minLiveBetAmount : ℚ := 1

/-- `placeBet(config)`'s argument (`BetConfig` of `types.ts`). -/
structure BetConfig where
  amount : ℚ
  direction : BetDirection
  holdTimeSeconds : ℕ
deriving DecidableEq, Repr

/-- The collaborator answers `BetService.placeBet` consults: live-trading
flag (`isLiveTrading?.() ?? false`), market availability, and the `Bet` the
market collaborator returns from `placeBet`. -/
structure BetPlacementEnv where
  liveTrading : Bool
  marketAvailable : Bool
  marketBet : Bet
deriving DecidableEq, Repr

/-- The mutable state `BetService.placeBet` can touch: the demo balance
(`LocalStorageBalanceRepository`, where `hasSufficientBalance(amount)` is
`balance ≥ amount` and `deduct` subtracts) and the saved bets of the bet
repository. -/
structure BetServiceState where
  balance : ℚ
  savedBets : List Bet
deriving DecidableEq, Repr

/-- `BetService.placeBet(config)`: live-minimum check, demo-balance check,
market-availability check — each throwing before any mutation — then deduct
(demo only), place with the market collaborator and save the returned bet. -/
def placeBet (env : BetPlacementEnv) (st : BetServiceState) (config : BetConfig) :
    Except String Bet × BetServiceState :=
  if env.liveTrading = true ∧ config.amount < minLiveBetAmount then
    (.error "Live bets must be at least $1.00", st)
  else if env.liveTrading = false ∧ ¬(config.amount ≤ st.balance) then
    (.error "Insufficient balance", st)
  else if env.marketAvailable = false then
    (.error "Market is not available", st)
  else
    let st1 := if env.liveTrading = true then st
      else { st with balance := qsub st.balance config.amount }
    (.ok env.marketBet, { st1 with savedBets := st1.savedBets ++ [env.marketBet] })

/-- **C9.** `BetService.placeBet` is atomic on validation failure: whenever
it throws, the thrown error is the live-minimum error, "Insufficient
balance" or "Market is not available", and no state has been mutated — the
balance is intact and no bet has been saved. -/
theorem C9_place_bet_atomic (env : BetPlacementEnv) (st : BetServiceState)
    (config : BetConfig) (e : String)
    (h : (placeBet env st config).1 = .error e) :
    (placeBet env st config).2 = st ∧
    (e = "Live bets must be at least $1.00" ∨ e = "Insufficient balance" ∨
      e = "Market is not available") := by
  unfold placeBet at h ⊢
  split_ifs at h ⊢ with h1 h2 h3 <;>
    first
      | exact ⟨rfl, Or.inl (by injection h with hh; exact hh.symm)⟩
      | exact ⟨rfl, Or.inr (Or.inl (by injection h with hh; exact hh.symm))⟩
      | exact ⟨rfl, Or.inr (Or.inr (by injection h with hh; exact hh.symm))⟩

/-- Witness for C9: demo mode, balance 5, bet of 10 — "Insufficient balance"
is thrown and the state is untouched. -/
theorem C9_place_bet_atomic_witness :
    (placeBet { liveTrading := false, marketAvailable := true, marketBet := bet10 }
        { balance := 5, savedBets := [] }
        { amount := 10, direction := .UP, holdTimeSeconds := 1 }).2 =
      { balance := 5, savedBets := [] } ∧
    ("Insufficient balance" = "Live bets must be at least $1.00" ∨
      "Insufficient balance" = "Insufficient balance" ∨
      "Insufficient balance" = "Market is not available") :=
  C9_place_bet_atomic _ _ _ "Insufficient balance" rfl

/-! ### Game orchestrator (`GameOrchestrator.ts`, claim C8) -/

/-- The `GameState` union of `GameOrchestrator.ts`. -/
inductive GameState
  | idle | placingBet | spinning | waiting | resolving | showingResult
deriving DecidableEq, Repr

/-- The orchestrator fields `spin` can read or write: `currentState`,
`currentBetId`, the monotone `activeRunId` counter and the cancellation
marker `cancelledRunId`. -/
structure OrchestratorState where
  currentState : GameState
  currentBetId : Option String
  activeRunId : ℕ
  cancelledRunId : Option ℕ
deriving DecidableEq, Repr

/-- External answers consumed by one `spin` run: the outcome of
`betService.placeBet`, the outcome of `betService.resolveBet`, and the
choice stream for `generateSpinResult`. -/
structure SpinEnv where
  placeBetResult : Except String Bet
  resolveResult : Except String BetResolution
  rand : ℕ → ℕ

/-- How one `spin` call ends: a thrown error, a completed spin, an early
`return` due to a recorded cancellation of this run, or divergence of the
slot-machine synthesis. -/
inductive SpinCallOutcome
  | threw (msg : String)
  | finished (r : SpinResult)
  | returnedEarly
  | hung

/-- `GameOrchestrator.spin`: the non-idle guard throws *before* the run-id
increment and the `try` block; afterwards the state machine walks
placing-bet → spinning → waiting → resolving → showing-result → idle,
resetting to idle (and rethrowing) when a collaborator call throws. -/
def spin (s : OrchestratorState) (env : SpinEnv) :
    SpinCallOutcome × OrchestratorState :=
  if s.currentState ≠ GameState.idle then
    (.threw "Game already in progress", s)
  else
    let runId := s.activeRunId + 1
    let s1 := { s with activeRunId := runId, currentState := GameState.placingBet }
    match env.placeBetResult with
    | .error msg => (.threw msg, { s1 with currentState := .idle, currentBetId := none })
    | .ok bet =>
      let s2 := { s1 with currentBetId := some bet.id, currentState := GameState.spinning }
      if s2.cancelledRunId = some runId then (.returnedEarly, s2)
      else
        let s3 := { s2 with currentState := GameState.waiting }
        if s3.cancelledRunId = some runId then (.returnedEarly, s3)
        else
          let s4 := { s3 with currentState := GameState.resolving }
          match env.resolveResult with
          | .error msg => (.threw msg, { s4 with currentState := .idle, currentBetId := none })
          | .ok resolution =>
            match generateSpinResult env.rand 0 resolution with
            | none => (.hung, s4)
            | some r =>
              let s5 := { s4 with currentState := GameState.showingResult }
              (.finished r, { s5 with currentState := .idle, currentBetId := none })

/-- **C8.** For every orchestrator state with `currentState ≠ idle`, calling
`spin` throws "Game already in progress" and leaves the whole state — in
particular `currentState`, the run-id counter and `currentBetId` —
unchanged. -/
theorem C8_spin_guard (s : OrchestratorState) (env : SpinEnv)
    (h : s.currentState ≠ GameState.idle) :
    spin s env = (.threw "Game already in progress", s) := by
  unfold spin
  rw [if_pos h]

/-- Witness for C8 at a concrete mid-spin state. -/
theorem C8_spin_guard_witness :
    spin { currentState := GameState.waiting, currentBetId := some "bet-1",
           activeRunId := 3, cancelledRunId := none }
        { placeBetResult := .ok bet10, resolveResult := .ok resolution25,
          rand := fun _ => 0 } =
      (.threw "Game already in progress",
       { currentState := GameState.waiting, currentBetId := some "bet-1",
         activeRunId := 3, cancelledRunId := none }) :=
  C8_spin_guard _ _ (by decide)

/-! ### Cluster seeding (claim C7) -/

/-- `scanFill` only ever appends to the position list. -/
theorem scanFill_positions_extend (sym : String) (count : ℕ) :
    ∀ (cells : List Pos) (g : Grid) (ps : List Pos) (placed : ℕ),
      ∃ l, (scanFill sym count cells g ps placed).2.1 = ps ++ l := by
  intro cells
  induction cells with
  | nil => exact fun g ps placed => ⟨[], by simp [scanFill]⟩
  | cons p rest ih =>
    intro g ps placed
    unfold scanFill
    by_cases hp : g p.1 p.2 ≠ sym
    · rw [if_pos hp]
      by_cases hc : count ≤ placed + 1
      · rw [if_pos hc]
        exact ⟨[p], rfl⟩
      · rw [if_neg hc]
        obtain ⟨l, hl⟩ := ih (setCell g p sym) (ps ++ [p]) (placed + 1)
        exact ⟨p :: l, by rw [hl]; simp⟩
    · rw [if_neg hp]
      exact ih g ps placed

/-- `placeLoop` only ever appends to the position list. -/
theorem placeLoop_positions_extend (f : ℕ → ℕ) (sym : String) (count : ℕ) :
    ∀ (fuel : ℕ) (st st' : PlaceState),
      placeLoop f sym count fuel st = some st' →
      ∃ l, st'.positions = st.positions ++ l := by
  intro fuel
  induction fuel with
  | zero => intro st st' h; exact absurd h (by simp [placeLoop])
  | succ fuel ih =>
    intro st st' h
    unfold placeLoop at h
    by_cases hlt : st.placed < count
    · rw [if_pos hlt] at h
      rcases hbase : st.positions.get? (f st.i % st.positions.length) with _ | base <;>
        rw [hbase] at h <;> dsimp only at h
      · injection h with h'
        exact ⟨[], by rw [← h', List.append_nil]⟩
      · rcases hgrow : tryGrow st.grid sym base (permOf (f (st.i + 1))) with _ | q <;>
          rw [hgrow] at h <;> dsimp only at h
        · split at h
          · obtain ⟨l, hl⟩ := ih _ _ h
            dsimp only at hl
            obtain ⟨l2, hl2⟩ := scanFill_positions_extend sym count allPositions
              st.grid st.positions st.placed
            exact ⟨l2 ++ l, by rw [hl, hl2, List.append_assoc]⟩
          · obtain ⟨l, hl⟩ := ih _ _ h
            exact ⟨l, hl⟩
        · split at h
          · obtain ⟨l, hl⟩ := ih _ _ h
            dsimp only at hl
            obtain ⟨l2, hl2⟩ := scanFill_positions_extend sym count allPositions
              (setCell st.grid q sym) (st.positions ++ [q]) (st.placed + 1)
            exact ⟨q :: l2 ++ l, by rw [hl, hl2]; simp⟩
          · obtain ⟨l, hl⟩ := ih _ _ h
            dsimp only at hl
            exact ⟨q :: l, by rw [hl]; simp⟩
    · rw [if_neg hlt] at h
      injection h with h'
      exact ⟨[], by rw [← h', List.append_nil]⟩


/-- **C7 (amended).** Every `placeCluster` invocation — the first *and* each
subsequent cluster of a `generateGridWithClusters` plan — seeds its blob at
the centre cell (3,3): whenever `placeCluster` returns, the first recorded
position is the centre. -/
theorem C7_center_seed_amended (f : ℕ → ℕ) (i : ℕ) (g : Grid) (sym : String)
    (count : ℕ) (st : PlaceState) (h : placeCluster f i g sym count = some st) :
    st.positions.head? = some centerPos := by
  obtain ⟨l, hl⟩ := placeLoop_positions_extend f sym count placeFuel _ _ h
  rw [hl]
  rfl

/-- A default `PlaceState`, only used to extract concrete run results. -/
def defaultPlaceState : PlaceState := ⟨fun _ _ => "candy_red", [], 0, 0⟩

/-- Witness for the amended C7: a concrete second-cluster placement. -/
theorem C7_center_seed_amended_witness :
    ((placeCluster (fun _ => 0) 49 (genGrid (fun _ => 0) 0).1 "bear_red" 5).getD
        defaultPlaceState).positions.head? = some centerPos :=
  C7_center_seed_amended (fun _ => 0) 49 (genGrid (fun _ => 0) 0).1 "bear_red" 5 _ rfl

/-- **C7 (counterexample).** With a plan of two clusters, the *second*
cluster is *not* seeded at a fresh conflict-free cell: it is seeded at the
very centre cell that already belongs to the first cluster, overwriting it
(the final grid's centre holds the second cluster's symbol). -/
theorem C7_second_cluster_seed_counterexample :
    ((placeCluster (fun _ => 0) 49 (genGrid (fun _ => 0) 0).1 "bear_red" 5).bind
        (fun st1 => (placeCluster (fun _ => 0) st1.i st1.grid "candy_green" 5).map
          (fun st2 => (decide (centerPos ∈ st1.positions), st2.positions.head?)))) =
      some (true, some centerPos) ∧
    (generateGridWithClusters (fun _ => 0) 0
        [{ symbol := "bear_red", positions := [], count := 5, payout := 0 },
         { symbol := "candy_green", positions := [], count := 5, payout := 0 }]).map
      (fun gi => gi.1 centerPos.1 centerPos.2) = some "candy_green" := by
  constructor
  · decide
  · rfl

/-! ### Blob size and termination (claim C4) -/

theorem allPositions_nodup : allPositions.Nodup := by decide

theorem mem_allPositions (p : Pos) : p ∈ allPositions := by
  revert p; decide

/-- Painting the cell `p` does not change any other cell. -/
theorem setCell_ne (g : Grid) (p q : Pos) (s : String) (h : q ≠ p) :
    setCell g p s q.1 q.2 = g q.1 q.2 := by
  unfold setCell
  rw [if_neg]
  intro hc
  exact h (Prod.ext hc.1 hc.2)

/-- Painting the cell `p` sets it. -/
theorem setCell_self (g : Grid) (p : Pos) (s : String) :
    setCell g p s p.1 p.2 = s := by
  unfold setCell
  rw [if_pos ⟨rfl, rfl⟩]

/-- A successful growth step paints a cell that did not hold the symbol. -/
theorem tryGrow_ne (g : Grid) (sym : String) (base : Pos) :
    ∀ (dirs : List (ℤ × ℤ)) (q : Pos), tryGrow g sym base dirs = some q →
      g q.1 q.2 ≠ sym := by
  intro dirs
  induction dirs with
  | nil => intro q h; exact absurd h (by simp [tryGrow])
  | cons d rest ih =>
    intro q h
    unfold tryGrow at h
    rcases hs : shift base d with _ | p <;> rw [hs] at h <;> dsimp only at h
    · exact ih q h
    · by_cases hne : g p.1 p.2 ≠ sym
      · rw [if_pos hne] at h
        injection h with h'
        exact h' ▸ hne
      · rw [if_neg hne] at h
        exact ih q h

/-- The cells of the 7×7 grid still not holding `sym`, ignoring the centre
seed cell.  `placeCluster`'s blob can reach exactly
`1 + offCenterMismatchCount g sym` cells. -/
def offCenterMismatchCount (g : Grid) (sym : String) : ℕ :=
  (allPositions.filter (fun p => decide (p ≠ centerPos ∧ g p.1 p.2 ≠ sym))).length

/-- After painting the centre, the number of non-`sym` cells is exactly
`offCenterMismatchCount`. -/
theorem mismatch_after_seed (g : Grid) (sym : String) :
    ((allPositions.filter
        (fun p => decide ((setCell g centerPos sym) p.1 p.2 ≠ sym))).length)
      = offCenterMismatchCount g sym := by
  unfold offCenterMismatchCount
  congr 1
  apply List.filter_congr
  intro p _
  by_cases hpc : p = centerPos
  · subst hpc
    simp [setCell_self]
  · rw [decide_eq_decide]
    rw [setCell_ne g centerPos p sym hpc]
    simp [hpc]

/-- Painting one currently-mismatching cell decreases the mismatch count of
a duplicate-free cell list by exactly one. -/
theorem filter_length_setCell (sym : String) (g : Grid) (q : Pos)
    (hne : g q.1 q.2 ≠ sym) :
    ∀ (l : List Pos), l.Nodup → q ∈ l →
      ((l.filter (fun p => decide ((setCell g q sym) p.1 p.2 ≠ sym))).length) + 1 =
        (l.filter (fun p => decide (g p.1 p.2 ≠ sym))).length := by
  intro l
  induction l with
  | nil => intro _ hq; cases hq
  | cons a rest ih =>
    intro hnd hq
    have hand := List.nodup_cons.mp hnd
    rcases List.mem_cons.mp hq with rfl | hmem
    · have hrest : rest.filter (fun p => decide ((setCell g q sym) p.1 p.2 ≠ sym)) =
          rest.filter (fun p => decide (g p.1 p.2 ≠ sym)) := by
        apply List.filter_congr
        intro p hp
        rw [decide_eq_decide, setCell_ne g q p sym (fun hc => hand.1 (hc ▸ hp))]
      rw [List.filter_cons_of_neg (by simp [setCell_self]),
        List.filter_cons_of_pos (by simpa using hne), hrest]
      simp
    · have ha : a ≠ q := fun hc => hand.1 (hc ▸ hmem)
      by_cases hga : g a.1 a.2 ≠ sym
      · rw [List.filter_cons_of_pos (by simpa [setCell_ne g q a sym ha] using hga),
          List.filter_cons_of_pos (by simpa using hga)]
        have := ih hand.2 hmem
        simp only [List.length_cons]
        omega
      · rw [List.filter_cons_of_neg (by simpa [setCell_ne g q a sym ha] using hga),
          List.filter_cons_of_neg (by simpa using hga)]
        exact ih hand.2 hmem

/-- The scan fallback reaches exactly `count` whenever enough mismatching
cells remain, and extends the position list by exactly `count − placed`. -/
theorem scanFill_reaches (sym : String) (count : ℕ) :
    ∀ (cells : List Pos) (g : Grid) (ps : List Pos) (placed : ℕ),
      cells.Nodup → placed < count →
      count ≤ placed + (cells.filter (fun p => decide (g p.1 p.2 ≠ sym))).length →
      (scanFill sym count cells g ps placed).2.2 = count ∧
      (scanFill sym count cells g ps placed).2.1.length = ps.length + (count - placed) := by
  intro cells
  induction cells with
  | nil =>
    intro g ps placed _ hlt hle
    simp only [List.filter_nil, List.length_nil, Nat.add_zero] at hle
    omega
  | cons p rest ih =>
    intro g ps placed hnd hlt hle
    have hand := List.nodup_cons.mp hnd
    unfold scanFill
    by_cases hp : g p.1 p.2 ≠ sym
    · rw [if_pos hp]
      by_cases hc : count ≤ placed + 1
      · rw [if_pos hc]
        refine ⟨by dsimp only; omega, ?_⟩
        dsimp only
        simp only [List.length_append, List.length_cons, List.length_nil]
        omega
      · rw [if_neg hc]
        have hfilter : rest.filter (fun r => decide ((setCell g p sym) r.1 r.2 ≠ sym)) =
            rest.filter (fun r => decide (g r.1 r.2 ≠ sym)) := by
          apply List.filter_congr
          intro r hr
          rw [decide_eq_decide, setCell_ne g p r sym (fun hc2 => hand.1 (hc2 ▸ hr))]
        rw [List.filter_cons_of_pos (by simpa using hp)] at hle
        have hle2 : count ≤ (placed + 1) +
            (rest.filter (fun r => decide ((setCell g p sym) r.1 r.2 ≠ sym))).length := by
          rw [hfilter]
          simp only [List.length_cons] at hle
          omega
        obtain ⟨ha, hb⟩ := ih (setCell g p sym) (ps ++ [p]) (placed + 1) hand.2
          (by omega) hle2
        refine ⟨ha, ?_⟩
        rw [hb]
        simp only [List.length_append, List.length_cons, List.length_nil]
        omega
    · rw [if_neg hp]
      apply ih g ps placed hand.2 hlt
      rw [List.filter_cons_of_neg (by simpa using hp)] at hle
      exact hle

/-- Once the target size is reached the loop returns immediately. -/
theorem placeLoop_done (f : ℕ → ℕ) (sym : String) (count : ℕ) (fuel : ℕ)
    (st : PlaceState) (hf : 0 < fuel) (h : ¬ st.placed < count) :
    placeLoop f sym count fuel st = some st := by
  cases fuel with
  | zero => omega
  | succ n =>
    unfold placeLoop
    rw [if_neg h]

/-- The growth step never succeeds on a grid that is entirely `sym`. -/
theorem tryGrow_allSym (g : Grid) (sym : String) (base : Pos)
    (hall : ∀ c r, g c r = sym) :
    ∀ dirs, tryGrow g sym base dirs = none := by
  intro dirs
  induction dirs with
  | nil => rfl
  | cons d rest ih =>
    unfold tryGrow
    rcases hs : shift base d with _ | p <;> dsimp only
    · exact ih
    · rw [if_neg (by simp [hall])]
      exact ih

/-- The scan fallback is a no-op on a grid that is entirely `sym`. -/
theorem scanFill_allSym (sym : String) (count : ℕ) (g : Grid)
    (hall : ∀ c r, g c r = sym) :
    ∀ cells ps placed, scanFill sym count cells g ps placed = (g, ps, placed) := by
  intro cells
  induction cells with
  | nil => intro ps placed; rfl
  | cons p rest ih =>
    intro ps placed
    unfold scanFill
    rw [if_neg (by simp [hall])]
    exact ih ps placed

/-- On a grid entirely equal to the symbol, the `placeCluster` loop makes no
progress and exhausts *any* amount of fuel — the source `while` loop never
terminates. -/
theorem placeLoop_stuck (f : ℕ → ℕ) (sym : String) (count : ℕ) :
    ∀ (fuel : ℕ) (st : PlaceState), (∀ c r, st.grid c r = sym) →
      st.placed < count → st.placed = st.positions.length → st.positions ≠ [] →
      placeLoop f sym count fuel st = none := by
  intro fuel
  induction fuel with
  | zero => intros; rfl
  | succ fuel ih =>
    intro st hall hlt hlen hne
    unfold placeLoop
    rw [if_pos hlt]
    have hlenpos : 0 < st.positions.length := List.length_pos.mpr hne
    have hidx : f st.i % st.positions.length < st.positions.length :=
      Nat.mod_lt _ hlenpos
    rcases hget : st.positions.get? (f st.i % st.positions.length) with _ | base <;>
      dsimp only
    · exfalso
      rw [List.get?_eq_get hidx] at hget
      cases hget
    · rw [tryGrow_allSym st.grid sym base hall (permOf (f (st.i + 1)))]
      dsimp only
      rw [if_pos ⟨hlen, hlt⟩,
        scanFill_allSym sym count st.grid hall allPositions st.positions st.placed]
      exact ih ⟨st.grid, st.positions, st.placed, st.i + 2⟩ hall hlt hlen hne

/-- **C4 (counterexample).** On an initial grid already filled entirely with
the blob's own symbol, `placeCluster` never reaches the requested size 2:
the loop makes no progress (`placeLoop_stuck` shows this for every fuel), so
the source `while` loop never terminates. -/
theorem C4_divergence_counterexample :
    placeCluster (fun _ => 0) 0 (fun _ _ => "bear_yellow") "bear_yellow" 2 = none ∧
    offCenterMismatchCount (fun _ _ => "bear_yellow") "bear_yellow" = 0 := by
  constructor
  · rfl
  · decide

/-- The C4 divergence is not a fuel artefact: on the all-`bear_yellow` grid
the loop state after the seed is a fixpoint, for every fuel. -/
theorem C4_divergence_all_fuel (fuel : ℕ) :
    placeLoop (fun _ => 0) "bear_yellow" 2 fuel
      ⟨setCell (fun _ _ => "bear_yellow") centerPos "bear_yellow",
       [centerPos], 1, 0⟩ = none :=
  placeLoop_stuck (fun _ => 0) "bear_yellow" 2 fuel _
    (fun c r => by by_cases h : c = centerPos.1 ∧ r = centerPos.2 <;> simp [setCell, h])
    (by decide) rfl (by decide)

/-- **C4 (amended).** For every initial grid, symbol and requested count
with `1 ≤ count`, and every outcome of the random choices, `placeCluster`
terminates with a position list of exactly the requested size *provided*
at least `count − 1` cells other than the centre differ from the symbol
(`count ≤ 1 + offCenterMismatchCount`); otherwise the loop can diverge, as
the counterexample shows. -/
theorem C4_place_cluster_reaches_count (f : ℕ → ℕ) (i : ℕ) (g : Grid)
    (sym : String) (count : ℕ) (h1 : 1 ≤ count)
    (h2 : count ≤ 1 + offCenterMismatchCount g sym) :
    ∃ st, placeCluster f i g sym count = some st ∧ st.positions.length = count := by
  unfold placeCluster
  by_cases hc1 : 1 < count
  case neg =>
    have hc : count = 1 := by omega
    subst hc
    rw [placeLoop_done f sym 1 placeFuel _ (by norm_num [placeFuel])
      (by dsimp only; omega)]
    exact ⟨_, rfl, rfl⟩
  case pos =>
    rw [show placeFuel = 49 + 1 from rfl]
    unfold placeLoop
    rw [if_pos (by dsimp only; omega)]
    dsimp only
    rw [show ([centerPos] : List Pos).get? (f i % ([centerPos] : List Pos).length) =
      some centerPos by simp [Nat.mod_one]]
    dsimp only
    rcases hgrow : tryGrow (setCell g centerPos sym) sym centerPos
        (permOf (f (i + 1))) with _ | q <;> dsimp only
    · rw [if_pos ⟨by simp, hc1⟩]
      obtain ⟨hplaced, hlen⟩ := scanFill_reaches sym count allPositions
        (setCell g centerPos sym) [centerPos] 1 allPositions_nodup hc1
        (by rw [mismatch_after_seed]; omega)
      rw [placeLoop_done f sym count 49 _ (by norm_num) (by dsimp only; omega)]
      refine ⟨_, rfl, ?_⟩
      dsimp only
      rw [hlen]
      simp only [List.length_cons, List.length_nil]
      omega
    · have hqne : (setCell g centerPos sym) q.1 q.2 ≠ sym :=
        tryGrow_ne (setCell g centerPos sym) sym centerPos _ q hgrow
      have hMq := filter_length_setCell sym (setCell g centerPos sym) q hqne
        allPositions allPositions_nodup (mem_allPositions q)
      rw [mismatch_after_seed] at hMq
      by_cases hc2 : 1 + 1 < count
      · rw [if_pos ⟨by simp, hc2⟩]
        obtain ⟨hplaced, hlen⟩ := scanFill_reaches sym count allPositions
          (setCell (setCell g centerPos sym) q sym) ([centerPos] ++ [q]) (1 + 1)
          allPositions_nodup hc2 (by omega)
        rw [placeLoop_done f sym count 49 _ (by norm_num) (by dsimp only; omega)]
        refine ⟨_, rfl, ?_⟩
        dsimp only
        rw [hlen]
        simp only [List.length_append, List.length_cons, List.length_nil]
        omega
      · rw [if_neg (by rintro ⟨_, hh⟩; omega)]
        rw [placeLoop_done f sym count 49 _ (by norm_num) (by dsimp only; omega)]
        refine ⟨_, rfl, ?_⟩
        dsimp only
        simp only [List.length_append, List.length_cons, List.length_nil]
        omega

/-- Witness for the amended C4: a uniform `bear_red` grid has 48 off-centre
mismatching cells for `bear_yellow`, so a blob of size 7 is always reached. -/
theorem C4_place_cluster_reaches_count_witness :
    ∃ st, placeCluster (fun _ => 0) 0 (fun _ _ => "bear_red") "bear_yellow" 7 = some st ∧
      st.positions.length = 7 :=
  C4_place_cluster_reaches_count (fun _ => 0) 0 (fun _ _ => "bear_red") "bear_yellow" 7
    (by decide) (by decide)

/-! ### Support for the winning path (claim C1) -/

/-- `computeProfit` is the sum of the payout fields. -/
theorem computeProfit_foldl (l : List WinningCluster) :
    ∀ q : ℚ, l.foldl (fun sum c => qadd sum c.payout) q =
      q + (l.map (fun c => c.payout)).sum := by
  induction l with
  | nil => intro q; simp
  | cons c rest ih =>
    intro q
    simp only [List.foldl_cons, List.map_cons, List.sum_cons]
    rw [ih, qadd_eq]
    ring

theorem computeProfit_eq (l : List WinningCluster) :
    computeProfit l = (l.map (fun c => c.payout)).sum := by
  unfold computeProfit
  rw [computeProfit_foldl]
  ring

/-- Every multiplier of a recognized symbol at count ≥ 5 is positive. -/
theorem gpm_pos (s : String) (hs : s ∈ SYMBOLS) (n : ℕ) (hn : 5 ≤ n) :
    0 < getPayoutMultiplier s n := by
  by_cases h15 : n ≤ 15
  · fin_cases hs <;> interval_cases n <;> decide
  · push_neg at h15
    have hiff : ∀ t ∈ (SYMBOL_PAYOUTS s).map Prod.fst, (t ≤ n ↔ t ≤ 15) := by
      intro t ht
      have := payout_keys_le15 s t ht
      omega
    rw [gpm_congr s n 15 hiff]
    fin_cases hs <;> decide

/-- A defaulted list index stays inside the list when the default is. -/
theorem getD_mem (l : List String) (k : ℕ) (d : String) (hd : d ∈ l) :
    (l.get? k).getD d ∈ l := by
  rcases h : l.get? k with _ | s
  · simpa using hd
  · simpa using List.get?_mem h

/-- Every cell of the grid holds one of the six game symbols. -/
def GridWF (g : Grid) : Prop := ∀ c r, g c r ∈ SYMBOLS

theorem getRandomSymbol_mem (f : ℕ → ℕ) (i : ℕ) :
    (getRandomSymbol f i).1 ∈ SYMBOLS :=
  getD_mem _ _ _ (by decide)

theorem genGrid_wf (f : ℕ → ℕ) (i : ℕ) : GridWF (genGrid f i).1 :=
  fun _ _ => getD_mem _ _ _ (by decide)

theorem setCell_wf (g : Grid) (p : Pos) (s : String) (hg : GridWF g)
    (hs : s ∈ SYMBOLS) : GridWF (setCell g p s) := by
  intro c r
  unfold setCell
  split
  · exact hs
  · exact hg c r

theorem scanFill_wf (sym : String) (count : ℕ) (hsym : sym ∈ SYMBOLS) :
    ∀ (cells : List Pos) (g : Grid) (ps : List Pos) (placed : ℕ), GridWF g →
      GridWF (scanFill sym count cells g ps placed).1 := by
  intro cells
  induction cells with
  | nil => intro g ps placed hg; exact hg
  | cons p rest ih =>
    intro g ps placed hg
    unfold scanFill
    by_cases hp : g p.1 p.2 ≠ sym
    · rw [if_pos hp]
      by_cases hc : count ≤ placed + 1
      · rw [if_pos hc]
        exact setCell_wf g p sym hg hsym
      · rw [if_neg hc]
        exact ih _ _ _ (setCell_wf g p sym hg hsym)
    · rw [if_neg hp]
      exact ih _ _ _ hg

theorem placeLoop_wf (f : ℕ → ℕ) (sym : String) (count : ℕ) (hsym : sym ∈ SYMBOLS) :
    ∀ (fuel : ℕ) (st st' : PlaceState), GridWF st.grid →
      placeLoop f sym count fuel st = some st' → GridWF st'.grid := by
  intro fuel
  induction fuel with
  | zero => intro st st' _ h; exact absurd h (by simp [placeLoop])
  | succ fuel ih =>
    intro st st' hwf h
    unfold placeLoop at h
    by_cases hlt : st.placed < count
    · rw [if_pos hlt] at h
      rcases hbase : st.positions.get? (f st.i % st.positions.length) with _ | base <;>
        rw [hbase] at h <;> dsimp only at h
      · injection h with h2
        exact h2 ▸ hwf
      · rcases hgrow : tryGrow st.grid sym base (permOf (f (st.i + 1))) with _ | q <;>
          rw [hgrow] at h <;> dsimp only at h
        · split at h
          · exact ih _ _ (scanFill_wf sym count hsym allPositions st.grid
              st.positions st.placed hwf) h
          · exact ih ⟨st.grid, st.positions, st.placed, st.i + 2⟩ _ hwf h
        · split at h
          · exact ih _ _ (scanFill_wf sym count hsym allPositions
              (setCell st.grid q sym) (st.positions ++ [q]) (st.placed + 1)
              (setCell_wf st.grid q sym hwf hsym)) h
          · exact ih ⟨setCell st.grid q sym, st.positions ++ [q], st.placed + 1, st.i + 2⟩
              _ (setCell_wf st.grid q sym hwf hsym) h
    · rw [if_neg hlt] at h
      injection h with h2
      exact h2 ▸ hwf

theorem placeCluster_wf (f : ℕ → ℕ) (i : ℕ) (g : Grid) (sym : String) (count : ℕ)
    (hg : GridWF g) (hsym : sym ∈ SYMBOLS) (st : PlaceState)
    (h : placeCluster f i g sym count = some st) : GridWF st.grid :=
  placeLoop_wf f sym count hsym placeFuel _ st
    (setCell_wf g centerPos sym hg hsym) h

theorem foldl_placeStep_wf (f : ℕ → ℕ) :
    ∀ (clusters : List WinningCluster) (acc : Option (Grid × ℕ)),
      (∀ c ∈ clusters, c.symbol ∈ SYMBOLS) →
      (∀ g0 i0, acc = some (g0, i0) → GridWF g0) →
      ∀ g2 i2, clusters.foldl (placeStep f) acc = some (g2, i2) → GridWF g2 := by
  intro clusters
  induction clusters with
  | nil => intro acc _ hacc g2 i2 h; exact hacc g2 i2 h
  | cons c rest ih =>
    intro acc hc hacc g2 i2 h
    rw [List.foldl_cons] at h
    refine ih _ (fun d hd => hc d (by simp [hd])) ?_ g2 i2 h
    intro g0 i0 hstep
    unfold placeStep at hstep
    rcases acc with _ | ⟨g1, j⟩
    · cases hstep
    · dsimp only at hstep
      rcases hpc : placeCluster f j g1 c.symbol c.count with _ | st <;>
        rw [hpc] at hstep
      · cases hstep
      · have hg1 : GridWF g1 := hacc g1 j rfl
        have hwf := placeCluster_wf f j g1 c.symbol c.count hg1 (hc c (by simp)) st hpc
        have hstep2 : some (st.grid, st.i) = some (g0, i0) := hstep
        injection hstep2 with h2
        have h3 : st.grid = g0 := congrArg Prod.fst h2
        exact h3 ▸ hwf

theorem generateGridWithClusters_wf (f : ℕ → ℕ) (i : ℕ)
    (clusters : List WinningCluster) (hc : ∀ c ∈ clusters, c.symbol ∈ SYMBOLS)
    (g2 : Grid) (i2 : ℕ) (h : generateGridWithClusters f i clusters = some (g2, i2)) :
    GridWF g2 := by
  unfold generateGridWithClusters at h
  refine foldl_placeStep_wf f clusters _ hc ?_ g2 i2 h
  intro g0 i0 hg
  injection hg with h2
  have h3 : (genGrid f i).1 = g0 := congrArg Prod.fst h2
  exact h3 ▸ genGrid_wf f i

/-- Every entry of the plan search names one of the six symbols. -/
theorem payoutEntries_symbols (stake : ℚ) :
    ∀ e ∈ payoutEntries stake, e.symbol ∈ SYMBOLS := by
  intro e he
  unfold payoutEntries at he
  rw [List.mem_flatMap] at he
  obtain ⟨s, hs, he2⟩ := he
  rw [List.mem_map] at he2
  obtain ⟨x, _, rfl⟩ := he2
  exact hs

/-- The best-entry scan returns the seed or a member of the list. -/
theorem closestEntry_mem (remaining : ℚ) (e0 : PayoutEntry)
    (entries : List PayoutEntry) :
    closestEntry remaining e0 entries ∈ e0 :: entries := by
  unfold closestEntry
  suffices h : ∀ (l : List PayoutEntry), (∀ e ∈ l, e ∈ e0 :: entries) →
      ∀ (acc : PayoutEntry × ℚ), acc.1 ∈ e0 :: entries →
      (l.foldl (fun acc e =>
        let diff := |qsub e.profit remaining|
        if diff < acc.2 then (e, diff) else acc) acc).1 ∈ e0 :: entries by
    exact h entries (fun e he => List.mem_cons_of_mem _ he) _ (by simp)
  intro l
  induction l with
  | nil => intro _ acc hacc; exact hacc
  | cons e rest ih =>
    intro hsub acc hacc
    rw [List.foldl_cons]
    refine ih (fun d hd => hsub d (by simp [hd])) _ ?_
    dsimp only
    split
    · exact hsub e (by simp)
    · exact hacc

/-- Every cluster the greedy plan search emits names one of the six symbols. -/
theorem buildLoop_symbols (entries : List PayoutEntry) (stake : ℚ)
    (hent : ∀ e ∈ entries, e.symbol ∈ SYMBOLS) :
    ∀ (fuel : ℕ) (remaining : ℚ) (clusters : List WinningCluster),
      (∀ c ∈ clusters, c.symbol ∈ SYMBOLS) →
      ∀ c ∈ buildLoop entries stake fuel remaining clusters, c.symbol ∈ SYMBOLS := by
  intro fuel
  induction fuel with
  | zero => intro remaining clusters hcl c hc; exact hcl c hc
  | succ fuel ih =>
    intro remaining clusters hcl c hc
    unfold buildLoop at hc
    split at hc
    · rcases entries with _ | ⟨e0, rest⟩
      · exact hcl c hc
      · dsimp only at hc
        have hbest : (closestEntry remaining e0 (e0 :: rest)).symbol ∈ SYMBOLS := by
          have hmem := closestEntry_mem remaining e0 (e0 :: rest)
          rcases List.mem_cons.mp hmem with he | he
          · rw [he]
            exact hent e0 (List.mem_cons_self e0 rest)
          · exact hent _ he
        have hcl2 : ∀ (d : WinningCluster), d ∈ clusters ++
            [WinningCluster.mk (closestEntry remaining e0 (e0 :: rest)).symbol []
              (closestEntry remaining e0 (e0 :: rest)).count
              (closestEntry remaining e0 (e0 :: rest)).profit] →
            d.symbol ∈ SYMBOLS := by
          intro d hd
          rcases List.mem_append.mp hd with hd2 | hd2
          · exact hcl d hd2
          · rw [List.mem_singleton] at hd2
            rw [hd2]
            exact hbest
        split at hc
        · exact hcl2 c hc
        · exact ih _ _ hcl2 c hc
    · exact hcl c hc

theorem buildClustersForProfit_symbols (t s : ℚ) :
    ∀ c ∈ buildClustersForProfit t s, c.symbol ∈ SYMBOLS := by
  intro c hc
  unfold buildClustersForProfit at hc
  rw [(List.perm_insertionSort clusterLE _).mem_iff] at hc
  refine buildLoop_symbols _ s ?_ 3 t [] (by simp) c hc
  intro e he
  rw [(List.perm_insertionSort entryGE _).mem_iff] at he
  exact payoutEntries_symbols s e he

/-- Shape of every cluster the flood-fill scan reports. -/
def ClusterShape (g : Grid) (stake : ℚ) (c : WinningCluster) : Prop :=
  (∃ p : Pos, c.symbol = g p.1 p.2) ∧ c.count = c.positions.length ∧ 5 ≤ c.count ∧
    c.payout = qmul (getPayoutMultiplier c.symbol c.count) stake

theorem foldl_clusterStep_shape (g : Grid) (stake : ℚ) :
    ∀ (cells : List Pos) (st : List Pos × List WinningCluster),
      (∀ c ∈ st.2, ClusterShape g stake c) →
      ∀ c ∈ (cells.foldl (clusterStep g stake) st).2, ClusterShape g stake c := by
  intro cells
  induction cells with
  | nil => intro st hst; exact hst
  | cons p rest ih =>
    intro st hst
    rw [List.foldl_cons]
    refine ih _ ?_
    intro c hc
    unfold clusterStep at hc
    by_cases hmem : p ∈ st.1
    · rw [if_pos hmem] at hc
      exact hst c hc
    · rw [if_neg hmem] at hc
      rcases hb : bfsLoop g (g p.1 p.2) bfsFuel [p] (st.1 ++ [p]) []
        with _ | ⟨positions, visited2⟩ <;> rw [hb] at hc <;> dsimp only at hc
      · exact hst c hc
      · by_cases h5 : 5 ≤ positions.length
        · rw [if_pos h5] at hc
          dsimp only at hc
          rcases List.mem_append.mp hc with hc2 | hc2
          · exact hst c hc2
          · rw [List.mem_singleton] at hc2
            subst hc2
            exact ⟨⟨p, rfl⟩, rfl, h5, rfl⟩
        · rw [if_neg h5] at hc
          exact hst c hc

theorem findConnectedClusters_shape (g : Grid) (stake : ℚ) :
    ∀ c ∈ findConnectedClusters g stake, ClusterShape g stake c := by
  intro c hc
  unfold findConnectedClusters at hc
  rw [(List.perm_insertionSort clusterLE _).mem_iff] at hc
  exact foldl_clusterStep_shape g stake allPositions ([], []) (by simp) c hc

/-- On a well-formed grid with positive stake, every reported cluster has a
strictly positive payout. -/
theorem clusters_payout_pos (g : Grid) (stake : ℚ) (hg : GridWF g)
    (hstake : 0 < stake) :
    ∀ c ∈ findConnectedClusters g stake, 0 < c.payout := by
  intro c hc
  obtain ⟨⟨p, hp⟩, _, h5, hpay⟩ := findConnectedClusters_shape g stake c hc
  rw [hpay, qmul_eq]
  exact mul_pos (gpm_pos c.symbol (hp ▸ hg p.1 p.2) c.count h5) hstake

theorem computeProfit_pos (l : List WinningCluster)
    (hpos : ∀ c ∈ l, 0 < c.payout) (hne : l ≠ []) : 0 < computeProfit l := by
  rw [computeProfit_eq]
  apply List.sum_pos
  · intro x hx
    rw [List.mem_map] at hx
    obtain ⟨c, hc, rfl⟩ := hx
    exact hpos c hc
  · intro hmap
    rw [List.map_eq_nil_iff] at hmap
    exact hne hmap

/-- Rescaling the detected clusters by `target / rawProfit` makes their
payouts sum to exactly `target`. -/
theorem scaled_clusters_sum (actual : List WinningCluster) (target : ℚ)
    (hpos : ∀ c ∈ actual, 0 < c.payout) (htarget : 0 < target) :
    (if 0 < computeProfit actual ∧ 0 < target then
        actual.map (fun c =>
          { c with payout := qmul c.payout (qdiv target (computeProfit actual)) })
      else actual) ≠ [] →
    ((if 0 < computeProfit actual ∧ 0 < target then
        actual.map (fun c =>
          { c with payout := qmul c.payout (qdiv target (computeProfit actual)) })
      else actual).map (fun c => c.payout)).sum = target := by
  intro hne
  rcases eq_or_ne actual [] with rfl | hne2
  · revert hne
    split <;> simp
  · have hraw : 0 < computeProfit actual := computeProfit_pos actual hpos hne2
    rw [if_pos ⟨hraw, htarget⟩]
    rw [List.map_map]
    have hmap : actual.map ((fun c => c.payout) ∘ (fun c =>
        ({ c with payout := qmul c.payout (qdiv target (computeProfit actual)) }
          : WinningCluster))) =
        actual.map (fun c => c.payout * (target / computeProfit actual)) := by
      apply List.map_congr_left
      intro c _
      show qmul c.payout (qdiv target (computeProfit actual)) = _
      rw [qmul_eq, qdiv_eq]
    rw [hmap, List.sum_map_mul_right, ← computeProfit_eq]
    rw [mul_comm, div_mul_cancel₀ _ (ne_of_gt hraw)]


/-- Properties of the final record every leaf of the winning path builds. -/
theorem assembly_ok (target payout2 stake : ℚ) (bet : Bet) (g : Grid) (r : SpinResult)
    (hpos : ∀ c ∈ findConnectedClusters g stake, 0 < c.payout)
    (htpos : 0 < target)
    (h : (some { symbols := g, isWin := decide (0 < target), winAmount := target,
                 totalPayout := payout2, multiplier := qdiv payout2 stake, bet := bet,
                 clusters := if 0 < computeProfit (findConnectedClusters g stake) ∧ 0 < target
                   then (findConnectedClusters g stake).map (fun c =>
                     { c with payout := qmul c.payout (qdiv target (computeProfit (findConnectedClusters g stake))) })
                   else findConnectedClusters g stake } : Option SpinResult) = some r) :
    r.winAmount = target ∧
    (r.clusters ≠ [] → (r.clusters.map (fun c => c.payout)).sum = r.winAmount) := by
  have h2 := Option.some.inj h
  have hwa := congrArg SpinResult.winAmount h2
  have hcl := congrArg SpinResult.clusters h2
  dsimp only at hwa hcl
  have hs := scaled_clusters_sum (findConnectedClusters g stake) target hpos htpos
  rw [hcl] at hs
  exact ⟨hwa.symm, fun hne => (hs hne).trans hwa⟩

/-- **C1 (counterexample).** A winning resolution (stake 10, payout 14) and
a concrete outcome of the random choices under which `generateSpinResult`
returns an *empty* clusters list even though `winAmount = 4 > 0`: all three
synthesis attempts produce grids whose blob was split below size 5 by the
scan fallback, so no size-≥5 component exists and the cluster sum (0)
misses `winAmount` by far more than 1e-6. -/
theorem C1_empty_clusters_counterexample :
    resolution14.bet.amount < resolution14.payout ∧ 0 < resolution14.bet.amount ∧
    (generateSpinResult cexStream 0 resolution14).map
      (fun r => (r.clusters, r.winAmount, r.isWin)) = some ([], 4, true) :=
  ⟨by decide, by decide, by decide⟩

/-- **C1 (amended).** For every resolution with `payout > stake > 0` and
every outcome of the random choices on which `generateSpinResult` returns,
the result's `winAmount` equals `payout − stake` exactly, and *whenever the
clusters list is non-empty* the clusters' payout fields sum exactly to
`winAmount` (the counterexample shows the list can be empty in degenerate
random outcomes, so non-emptiness cannot be guaranteed). -/
theorem C1_win_amount_and_cluster_sum (f : ℕ → ℕ) (i : ℕ) (res : BetResolution)
    (hwin : res.bet.amount < res.payout) (hstake : 0 < res.bet.amount)
    (r : SpinResult) (h : generateSpinResult f i res = some r) :
    r.winAmount = res.payout - res.bet.amount ∧
    (r.clusters ≠ [] → (r.clusters.map (fun c => c.payout)).sum = r.winAmount) := by
  have htv : max 0 (qsub res.payout res.bet.amount) = res.payout - res.bet.amount := by
    rw [qsub_eq]
    exact max_eq_right (by linarith)
  have htpos : 0 < max 0 (qsub res.payout res.bet.amount) := by
    rw [htv]
    linarith
  have htne : ¬ max 0 (qsub res.payout res.bet.amount) ≤ 0 := not_le.mpr htpos
  have hplan := buildClustersForProfit_symbols
    (max 0 (qsub res.payout res.bet.amount)) res.bet.amount
  unfold generateSpinResult at h
  rw [if_neg htne] at h
  dsimp only at h
  rcases h1 : generateGridWithClusters f i (buildClustersForProfit
      (max 0 (qsub res.payout res.bet.amount)) res.bet.amount) with _ | ⟨s1, i1⟩ <;>
    rw [h1] at h <;> dsimp only at h
  · cases h
  · have hg1 : GridWF s1 := generateGridWithClusters_wf f i _ hplan s1 i1 h1
    by_cases he1 : (findConnectedClusters s1 res.bet.amount).isEmpty = true
    · rw [if_pos he1] at h
      rcases h2 : (buildClustersForProfit (max 0 (qsub res.payout res.bet.amount))
          res.bet.amount).head? with _ | fp <;> rw [h2] at h <;> dsimp only at h
      · rw [if_pos he1] at h
        rcases h3 : generateGridWithClusters f (getRandomSymbol f i1).2
            [{ symbol := (getRandomSymbol f i1).1, positions := [], count := 5,
               payout := 0 }] with _ | ⟨s3, i3⟩ <;> rw [h3] at h <;> dsimp only at h
        · cases h
        · have hg3 : GridWF s3 := generateGridWithClusters_wf f _ _
            (by intro c hc
                rw [List.mem_singleton] at hc
                subst hc
                exact getRandomSymbol_mem f i1) s3 i3 h3
          have hfin := assembly_ok (max 0 (qsub res.payout res.bet.amount)) res.payout
            res.bet.amount res.bet s3 r
            (clusters_payout_pos s3 res.bet.amount hg3 hstake) htpos h
          exact ⟨hfin.1.trans htv, hfin.2⟩
      · rcases h3 : generateGridWithClusters f i1 [fp] with _ | ⟨s2, i2⟩ <;>
          rw [h3] at h <;> dsimp only at h
        · cases h
        · have hfp : fp.symbol ∈ SYMBOLS := hplan fp (List.mem_of_mem_head? h2)
          have hg2 : GridWF s2 := generateGridWithClusters_wf f i1 [fp]
            (by intro c hc
                rw [List.mem_singleton] at hc
                subst hc
                exact hfp) s2 i2 h3
          by_cases he2 : (findConnectedClusters s2 res.bet.amount).isEmpty = true
          · rw [if_pos he2] at h
            rcases h4 : generateGridWithClusters f (getRandomSymbol f i2).2
                [{ symbol := (getRandomSymbol f i2).1, positions := [], count := 5,
                   payout := 0 }] with _ | ⟨s3, i3⟩ <;> rw [h4] at h <;> dsimp only at h
            · cases h
            · have hg3 : GridWF s3 := generateGridWithClusters_wf f _ _
                (by intro c hc
                    rw [List.mem_singleton] at hc
                    subst hc
                    exact getRandomSymbol_mem f i2) s3 i3 h4
              have hfin := assembly_ok (max 0 (qsub res.payout res.bet.amount)) res.payout
                res.bet.amount res.bet s3 r
                (clusters_payout_pos s3 res.bet.amount hg3 hstake) htpos h
              exact ⟨hfin.1.trans htv, hfin.2⟩
          · rw [if_neg he2] at h
            dsimp only at h
            have hfin := assembly_ok (max 0 (qsub res.payout res.bet.amount)) res.payout
              res.bet.amount res.bet s2 r
              (clusters_payout_pos s2 res.bet.amount hg2 hstake) htpos h
            exact ⟨hfin.1.trans htv, hfin.2⟩
    · rw [if_neg he1] at h
      dsimp only at h
      rw [if_neg he1] at h
      dsimp only at h
      have hfin := assembly_ok (max 0 (qsub res.payout res.bet.amount)) res.payout
        res.bet.amount res.bet s1 r
        (clusters_payout_pos s1 res.bet.amount hg1 hstake) htpos h
      exact ⟨hfin.1.trans htv, hfin.2⟩

/-- A default `SpinResult`, only used to extract concrete run results. -/
def defaultSpinResult : SpinResult :=
  { symbols := fun _ _ => "candy_red", isWin := false, winAmount := 0,
    totalPayout := 0, multiplier := 0, bet := bet10, clusters := [] }

/-- The concrete spin result of the all-zeros choice stream on
`resolution25` (stake 10, payout 25). -/
def spin25 : SpinResult :=
  (generateSpinResult (fun _ => 0) 0 resolution25).getD defaultSpinResult

/-- Witness for the amended C1 at the stake-10/payout-25 scenario. -/
theorem C1_win_amount_and_cluster_sum_witness :
    resolution25.bet.amount < resolution25.payout ∧ 0 < resolution25.bet.amount ∧
    (spin25.winAmount = resolution25.payout - resolution25.bet.amount ∧
     (spin25.clusters ≠ [] →
       (spin25.clusters.map (fun c => c.payout)).sum = spin25.winAmount)) :=
  ⟨by decide, by decide,
   C1_win_amount_and_cluster_sum (fun _ => 0) 0 resolution25 (by decide) (by decide)
     spin25 rfl⟩

/-! ### Full correctness of the flood-fill cluster finder -/

/-- Same-symbol 4-adjacency on the grid: `q` is an in-bounds 4-neighbour of
`p` showing the same symbol. -/
def adj (g : Grid) (p q : Pos) : Prop :=
  q ∈ nbrs p ∧ g q.1 q.2 = g p.1 p.2

/-- `reach g p q`: `q` lies in the maximal 4-connected same-symbol region
containing `p` (reflexive-transitive closure of `adj`). -/
def reach (g : Grid) : Pos → Pos → Prop :=
  Relation.ReflTransGen (adj g)

theorem nbrs_symm : ∀ p q : Pos, p ∈ nbrs q ↔ q ∈ nbrs p := by decide

theorem nbrs_nodup : ∀ p : Pos, (nbrs p).Nodup := by decide

theorem card_Pos : Fintype.card Pos = 49 := by simp

theorem adj_symm (g : Grid) : Symmetric (adj g) := by
  intro a b h
  exact ⟨(nbrs_symm a b).mpr h.1, h.2.symm⟩

theorem reach_symm (g : Grid) {p q : Pos} (h : reach g p q) : reach g q p :=
  Relation.ReflTransGen.symmetric (adj_symm g) h

theorem reach_symbol (g : Grid) {p q : Pos} (h : reach g p q) :
    g q.1 q.2 = g p.1 p.2 := by
  induction h with
  | refl => rfl
  | tail _ h₂ ih => exact h₂.2.trans ih

/-- A list that contains a seed, consists of cells reachable from the seed,
and is closed under same-symbol adjacency is exactly the connected region of
each of its members. -/
theorem comp_char (g : Grid) (p₀ : Pos) (L : List Pos)
    (hreach : ∀ a ∈ L, reach g p₀ a)
    (hclosed : ∀ a ∈ L, ∀ q, adj g a q → q ∈ L) :
    ∀ p ∈ L, ∀ q : Pos, q ∈ L ↔ reach g p q := by
  intro p hp q
  constructor
  · intro hq
    exact (reach_symm g (hreach p hp)).trans (hreach q hq)
  · intro hr
    induction hr with
    | refl => exact hp
    | tail _ h₂ ih => exact hclosed _ ih _ h₂

/-- The region of a member of such a list has exactly the list's length as
its number of cells. -/
theorem comp_ncard (g : Grid) (L : List Pos) (hnd : L.Nodup)
    (hchar : ∀ q : Pos, q ∈ L ↔ reach g p q) :
    Set.ncard {q : Pos | reach g p q} = L.length := by
  have hset : {q : Pos | reach g p q} = ↑L.toFinset := by
    ext q
    simp only [Set.mem_setOf_eq, Finset.coe_sort_coe, List.coe_toFinset,
      Set.mem_setOf_eq, List.mem_toFinset]
    exact (hchar q).symm
  rw [hset, Set.ncard_coe_Finset, List.toFinset_card_of_nodup hnd]

/-- Full specification of the BFS inner loop of `findConnectedClusters`:
under the queue/visited/accumulator invariants, sufficient fuel makes the
loop return, the dequeued cells are exactly the cells newly marked visited,
they are all reachable from the seed, and they are closed under same-symbol
adjacency relative to the final visited list. -/
theorem bfsLoop_spec (g : Grid) (sym : String) (p₀ : Pos) (V₀ : List Pos)
    (hsym : g p₀.1 p₀.2 = sym) :
    ∀ (fuel : ℕ) (queue visited acc : List Pos),
      visited = V₀ ++ acc ++ queue →
      visited.Nodup →
      (∀ q ∈ acc ++ queue, reach g p₀ q) →
      (∀ a ∈ acc, ∀ q : Pos, adj g a q → q ∈ visited) →
      p₀ ∈ acc ++ queue →
      5 * (49 - visited.length) + queue.length < fuel →
      ∃ accF visF, bfsLoop g sym fuel queue visited acc = some (accF, visF) ∧
        visF = V₀ ++ accF ∧ visF.Nodup ∧
        (∀ q ∈ accF, reach g p₀ q) ∧
        (∀ a ∈ accF, ∀ q : Pos, adj g a q → q ∈ visF) ∧
        p₀ ∈ accF := by
  intro fuel
  induction fuel with
  | zero =>
    intro queue visited acc _ _ _ _ _ hm
    exact absurd hm (by omega)
  | succ fuel ih =>
    intro queue visited acc h1 h2 h3 h4 h5 hm
    cases queue with
    | nil =>
      refine ⟨acc, visited, rfl, ?_, h2, ?_, h4, ?_⟩
      · rw [h1, List.append_nil]
      · intro q hq
        exact h3 q (by simpa using hq)
      · simpa using h5
    | cons p rest =>
      have hps : reach g p₀ p := h3 p (by simp)
      have hpsym : g p.1 p.2 = sym := (reach_symbol g hps).trans hsym
      set F : List Pos :=
        (nbrs p).filter (fun q => decide (q ∉ visited ∧ g q.1 q.2 = sym)) with hF
      have hFmem : ∀ q ∈ F, q ∈ nbrs p ∧ q ∉ visited ∧ g q.1 q.2 = sym := by
        intro q hq
        rw [hF] at hq
        have h := List.mem_filter.mp hq
        exact ⟨h.1, of_decide_eq_true h.2⟩
      have hFof : ∀ q : Pos, q ∈ nbrs p → q ∉ visited → g q.1 q.2 = sym → q ∈ F := by
        intro q hnb hnv hsq
        rw [hF]
        exact List.mem_filter.mpr ⟨hnb, decide_eq_true ⟨hnv, hsq⟩⟩
      have hFnodup : F.Nodup := (nbrs_nodup p).filter _
      have hstep : bfsLoop g sym (fuel + 1) (p :: rest) visited acc =
          bfsLoop g sym fuel (rest ++ F) (visited ++ F) (acc ++ [p]) := rfl
      have h1' : visited ++ F = V₀ ++ (acc ++ [p]) ++ (rest ++ F) := by
        rw [h1]
        simp only [List.append_assoc, List.cons_append, List.singleton_append,
          List.nil_append]
      have h2' : (visited ++ F).Nodup := by
        rw [List.nodup_append]
        exact ⟨h2, hFnodup, fun a ha haF => (hFmem a haF).2.1 ha⟩
      have h3' : ∀ q ∈ (acc ++ [p]) ++ (rest ++ F), reach g p₀ q := by
        intro q hq
        simp only [List.mem_append, List.mem_singleton] at hq
        rcases hq with (hq | rfl) | hq | hq
        · exact h3 q (by simp [hq])
        · exact hps
        · exact h3 q (by simp [hq])
        · exact hps.tail ⟨(hFmem q hq).1, (hFmem q hq).2.2.trans hpsym.symm⟩
      have h4' : ∀ a ∈ acc ++ [p], ∀ q : Pos, adj g a q → q ∈ visited ++ F := by
        intro a ha q hadj
        simp only [List.mem_append, List.mem_singleton] at ha
        rcases ha with ha | rfl
        · exact List.mem_append.mpr (Or.inl (h4 a ha q hadj))
        · by_cases hv : q ∈ visited
          · exact List.mem_append.mpr (Or.inl hv)
          · exact List.mem_append.mpr
              (Or.inr (hFof q hadj.1 hv (hadj.2.trans hpsym)))
      have h5' : p₀ ∈ (acc ++ [p]) ++ (rest ++ F) := by
        simp only [List.mem_append, List.mem_cons] at h5
        simp only [List.mem_append, List.mem_singleton]
        tauto
      have hm' : 5 * (49 - (visited ++ F).length) + (rest ++ F).length < fuel := by
        have h49 := h2'.length_le_card
        rw [card_Pos] at h49
        simp only [List.length_append] at h49 ⊢
        simp only [List.length_cons] at hm
        omega
      rw [hstep]
      exact ih (rest ++ F) (visited ++ F) (acc ++ [p]) h1' h2' h3' h4' h5' hm'

/-- What `findConnectedClusters` guarantees of each reported cluster:
duplicate-free positions forming the full connected same-symbol region of
each of its members, with matching count, size ≥ 5 and the region's
symbol. -/
abbrev ClusterOK (g : Grid) (c : WinningCluster) : Prop :=
  c.positions.Nodup ∧ c.count = c.positions.length ∧ 5 ≤ c.count ∧
  (∀ p ∈ c.positions, c.symbol = g p.1 p.2) ∧
  (∀ p ∈ c.positions, ∀ q : Pos, q ∈ c.positions ↔ reach g p q)

/-- Invariant of the outer 49-cell scan of `findConnectedClusters`: the
visited list is duplicate-free and closed under same-symbol adjacency, the
clusters found so far are correct, pairwise disjoint and visited, and every
visited cell whose region has ≥ 5 cells already lies in some cluster. -/
abbrev ScanInv (g : Grid) (st : List Pos × List WinningCluster) : Prop :=
  st.1.Nodup ∧
  (∀ v ∈ st.1, ∀ q : Pos, adj g v q → q ∈ st.1) ∧
  (∀ c ∈ st.2, ClusterOK g c) ∧
  List.Pairwise (fun c d : WinningCluster => ∀ q ∈ c.positions, q ∉ d.positions) st.2 ∧
  (∀ c ∈ st.2, ∀ q ∈ c.positions, q ∈ st.1) ∧
  (∀ v ∈ st.1, 5 ≤ Set.ncard {q : Pos | reach g v q} → ∃ c ∈ st.2, v ∈ c.positions)

/-- One outer-scan step preserves the invariant, marks the scanned cell
visited, and only grows the visited and cluster lists. -/
theorem clusterStep_inv (g : Grid) (stake : ℚ) (st : List Pos × List WinningCluster)
    (p : Pos) (hinv : ScanInv g st) :
    ScanInv g (clusterStep g stake st p) ∧
    p ∈ (clusterStep g stake st p).1 ∧
    (∀ x ∈ st.1, x ∈ (clusterStep g stake st p).1) := by
  obtain ⟨hnd, hcl, hok, hpw, hsub, hcomp⟩ := hinv
  by_cases hp : p ∈ st.1
  · unfold clusterStep
    rw [if_pos hp]
    exact ⟨⟨hnd, hcl, hok, hpw, hsub, hcomp⟩, hp, fun x hx => hx⟩
  · obtain ⟨accF, visF, hrun, hvis, hvnd, hreach, hclosed, hpmem⟩ :=
      bfsLoop_spec g (g p.1 p.2) p st.1 rfl bfsFuel [p] (st.1 ++ [p]) []
        (by simp)
        (by rw [List.nodup_append]
            exact ⟨hnd, List.nodup_singleton p,
              fun a ha hap => hp (List.mem_singleton.mp hap ▸ ha)⟩)
        (by intro q hq
            simp only [List.nil_append, List.mem_singleton] at hq
            subst hq
            exact Relation.ReflTransGen.refl)
        (by intro a ha
            exact absurd ha (List.not_mem_nil a))
        (by simp)
        (by show 5 * (49 - (st.1 ++ [p]).length) + [p].length < 300
            simp only [List.length_append, List.length_singleton]
            omega)
    rw [hvis] at hvnd
    obtain ⟨-, hFnd, hdisj⟩ := List.nodup_append.mp hvnd
    rw [← hvis] at hvnd
    have hclosedF : ∀ a ∈ accF, ∀ q : Pos, adj g a q → q ∈ accF := by
      intro a ha q hadj
      have hqv := hclosed a ha q hadj
      rw [hvis] at hqv
      rcases List.mem_append.mp hqv with hq1 | hq2
      · exact (hdisj (hcl q hq1 a (adj_symm g hadj)) ha).elim
      · exact hq2
    have hchar := comp_char g p accF hreach hclosedF
    have hsymF : ∀ p' ∈ accF, g p.1 p.2 = g p'.1 p'.2 := by
      intro p' hp'
      exact (reach_symbol g (hreach p' hp')).symm
    unfold clusterStep
    rw [if_neg hp, hrun]
    dsimp only
    by_cases h5len : 5 ≤ accF.length
    · rw [if_pos h5len]
      refine ⟨⟨hvnd, ?_, ?_, ?_, ?_, ?_⟩, ?_, ?_⟩
      · intro v hv q hadj
        rw [hvis] at hv ⊢
        rcases List.mem_append.mp hv with hv1 | hv2
        · exact List.mem_append.mpr (Or.inl (hcl v hv1 q hadj))
        · exact List.mem_append.mpr (Or.inr (hclosedF v hv2 q hadj))
      · intro c hc
        rcases List.mem_append.mp hc with hc1 | hc2
        · exact hok c hc1
        · rw [List.mem_singleton] at hc2
          subst hc2
          exact ⟨hFnd, rfl, h5len, hsymF, hchar⟩
      · rw [List.pairwise_append]
        refine ⟨hpw, List.pairwise_singleton _ _, ?_⟩
        intro c hc d hd q hqc
        rw [List.mem_singleton] at hd
        subst hd
        exact fun hqF => hdisj (hsub c hc q hqc) hqF
      · intro c hc q hq
        rw [hvis]
        rcases List.mem_append.mp hc with hc1 | hc2
        · exact List.mem_append.mpr (Or.inl (hsub c hc1 q hq))
        · rw [List.mem_singleton] at hc2
          subst hc2
          exact List.mem_append.mpr (Or.inr hq)
      · intro v hv h5c
        rw [hvis] at hv
        rcases List.mem_append.mp hv with hv1 | hv2
        · obtain ⟨c, hc, hvc⟩ := hcomp v hv1 h5c
          exact ⟨c, List.mem_append.mpr (Or.inl hc), hvc⟩
        · exact ⟨_, List.mem_append.mpr (Or.inr (List.mem_singleton.mpr rfl)), hv2⟩
      · rw [hvis]
        exact List.mem_append.mpr (Or.inr hpmem)
      · intro x hx
        rw [hvis]
        exact List.mem_append.mpr (Or.inl hx)
    · rw [if_neg h5len]
      refine ⟨⟨hvnd, ?_, hok, hpw, ?_, ?_⟩, ?_, ?_⟩
      · intro v hv q hadj
        rw [hvis] at hv ⊢
        rcases List.mem_append.mp hv with hv1 | hv2
        · exact List.mem_append.mpr (Or.inl (hcl v hv1 q hadj))
        · exact List.mem_append.mpr (Or.inr (hclosedF v hv2 q hadj))
      · intro c hc q hq
        rw [hvis]
        exact List.mem_append.mpr (Or.inl (hsub c hc q hq))
      · intro v hv h5c
        rw [hvis] at hv
        rcases List.mem_append.mp hv with hv1 | hv2
        · exact hcomp v hv1 h5c
        · rw [comp_ncard g accF hFnd (hchar v hv2)] at h5c
          exact absurd h5c h5len
      · rw [hvis]
        exact List.mem_append.mpr (Or.inr hpmem)
      · intro x hx
        rw [hvis]
        exact List.mem_append.mpr (Or.inl hx)

/-- The outer fold preserves the invariant, keeps old visited cells
visited, and visits every scanned cell. -/
theorem foldl_clusterStep_inv (g : Grid) (stake : ℚ) :
    ∀ (cells : List Pos) (st : List Pos × List WinningCluster), ScanInv g st →
      ScanInv g (cells.foldl (clusterStep g stake) st) ∧
      (∀ x ∈ st.1, x ∈ (cells.foldl (clusterStep g stake) st).1) ∧
      (∀ p ∈ cells, p ∈ (cells.foldl (clusterStep g stake) st).1) := by
  intro cells
  induction cells with
  | nil =>
    intro st h
    exact ⟨h, fun x hx => hx, by simp⟩
  | cons p rest ih =>
    intro st h
    rw [List.foldl_cons]
    obtain ⟨hinv', hpmem, hmono⟩ := clusterStep_inv g stake st p h
    obtain ⟨hinv'', hmono', hcells⟩ := ih (clusterStep g stake st p) hinv'
    refine ⟨hinv'', fun x hx => hmono' x (hmono x hx), ?_⟩
    intro q hq
    rcases List.mem_cons.mp hq with rfl | hq
    · exact hmono' _ hpmem
    · exact hcells q hq

/-- **C3.** For every 7×7 grid, `findConnectedClusters` returns exactly the
maximal 4-connected same-symbol regions of size ≥ 5: every returned
cluster's positions are duplicate-free, have `count = |positions|` with
`count ≥ 5`, all show the cluster's symbol, and are precisely the connected
same-symbol region of each of their members (so each cluster is a single
maximal region); no two returned clusters share a position; every cell
whose maximal region has ≥ 5 cells appears in some returned cluster (every
qualifying region is reported); and the result is sorted ascending by
`(payout, count)`. -/
theorem C3_flood_fill_clusters (g : Grid) (stake : ℚ) :
    (∀ c ∈ findConnectedClusters g stake,
        c.positions.Nodup ∧ c.count = c.positions.length ∧ 5 ≤ c.count ∧
        (∀ p ∈ c.positions, c.symbol = g p.1 p.2) ∧
        (∀ p ∈ c.positions, ∀ q : Pos, q ∈ c.positions ↔ reach g p q)) ∧
    List.Pairwise (fun c d : WinningCluster => ∀ q ∈ c.positions, q ∉ d.positions)
      (findConnectedClusters g stake) ∧
    (∀ p : Pos, 5 ≤ Set.ncard {q : Pos | reach g p q} →
        ∃ c ∈ findConnectedClusters g stake, p ∈ c.positions) ∧
    List.Sorted clusterLE (findConnectedClusters g stake) := by
  have hinv0 : ScanInv g ([], []) := by
    refine ⟨List.nodup_nil, ?_, ?_, List.Pairwise.nil, ?_, ?_⟩ <;>
      intro x hx <;> exact absurd hx (List.not_mem_nil x)
  obtain ⟨⟨-, -, hok, hpw, -, hcomp⟩, -, hall⟩ :=
    foldl_clusterStep_inv g stake allPositions ([], []) hinv0
  have hperm := List.perm_insertionSort clusterLE
    ((allPositions.foldl (clusterStep g stake) ([], [])).2)
  have hsymmR : Symmetric
      (fun c d : WinningCluster => ∀ q ∈ c.positions, q ∉ d.positions) := by
    intro c d h q hqd hqc
    exact h q hqc hqd
  refine ⟨?_, ?_, ?_, ?_⟩
  · intro c hc
    unfold findConnectedClusters at hc
    rw [hperm.mem_iff] at hc
    exact hok c hc
  · unfold findConnectedClusters
    rw [List.Perm.pairwise_iff (fun h => hsymmR h) hperm]
    exact hpw
  · intro p h5
    obtain ⟨c, hc, hpc⟩ := hcomp p (hall p (mem_allPositions p)) h5
    refine ⟨c, ?_, hpc⟩
    unfold findConnectedClusters
    rw [hperm.mem_iff]
    exact hc
  · unfold findConnectedClusters
    exact List.sorted_insertionSort clusterLE _

end PolymarketSlot
